import Mathlib

/-!
Verification of the tiered chain-data storage engine (BadgerDB backend):
key-value store batches and iterators, the ancient store, the dual
(current + archive) database, the background archiver and the genesis
replayer.  All definitions are shallow embeddings of the Go source in
`ethdb/badgerdb/badgerdb.go`, the `BadgerAncientStore` /
`DualBadgerDatabase` files and `ethdb/genesis/replayer.go`.
-/

namespace TieredStore

/-- A byte string; each element stands for one byte (values `< 256` where
they originate from the encoders below). -/
abbrev Bytes := List Nat

/-- A key-value store modelled as an association list in iteration order
(BadgerDB iterates keys in ascending byte order; theorems that depend on
the order carry an explicit sortedness hypothesis). -/
abbrev Store := List (Bytes × Bytes)

/-- Point lookup, embedding `txn.Get` (first binding wins; well-formed
stores have unique keys). -/
def sget : Store → Bytes → Option Bytes
  | [], _ => none
  | (k', v') :: rest, k => if k' = k then some v' else sget rest k

/-- Embedding of `txn.Set`: replace the binding if present, else append. -/
def sput : Store → Bytes → Bytes → Store
  | [], k, v => [(k, v)]
  | (k', v') :: rest, k, v =>
      if k' = k then (k, v) :: rest else (k', v') :: sput rest k v

/-- Embedding of `txn.Delete`: removes every binding of the key. -/
def sdel : Store → Bytes → Store
  | [], _ => []
  | (k', v') :: rest, k =>
      if k' = k then sdel rest k else (k', v') :: sdel rest k

/-- Keys of a store. -/
def keysOf (s : Store) : List Bytes := s.map Prod.fst

/-- A well-formed store binds each key at most once. -/
def nodupKeys (s : Store) : Prop := (keysOf s).Nodup

instance (s : Store) : Decidable (nodupKeys s) := by
  unfold nodupKeys
  infer_instance

/-- Lexicographic (ascending byte order) strict comparison used by the
backend's iterators: a proper prefix is smaller. -/
def lexLt : Bytes → Bytes → Bool
  | [], [] => false
  | [], _ :: _ => true
  | _ :: _, [] => false
  | a :: as, b :: bs => if a < b then true else if b < a then false else lexLt as bs

/-- Non-strict lexicographic comparison. -/
def lexLe (a b : Bytes) : Bool := lexLt a b || a == b

/-- `bytes.HasPrefix`: `isPrefixB p k` holds when `k` starts with `p`. -/
def isPrefixB : Bytes → Bytes → Bool
  | [], _ => true
  | _ :: _, [] => false
  | p :: ps, k :: ks => p == k && isPrefixB ps ks

/-- `binary.BigEndian.PutUint64` / `encodeBlockNumber` / `encodeUint64`:
eight big-endian bytes of `n` (truncated to 64 bits by the byte casts). -/
def encodeUint64 (n : Nat) : Bytes :=
  (List.range 8).map (fun i => n >>> (8 * (7 - i)) % 256)

/-- The big-endian decoding loop shared by `Archiver.getCurrentHeight`
and the replayer's `decodeUint64`: `n = (n << 8) | data[i]`.  Faithful for
byte values `< 256`, where bitwise-or of the shifted accumulator with the
byte is addition. -/
def beFold (data : Bytes) : Nat :=
  data.foldl (fun n b => n * 256 + b % 256) 0

/-- `decodeUint64` from `replayer.go`: returns `0` for fewer than eight
bytes, else decodes the first eight. -/
def decodeUint64 (data : Bytes) : Nat :=
  if data.length < 8 then 0 else beFold (data.take 8)

-- Basic store lemmas -------------------------------------------------------

theorem sget_sput_self (s : Store) (k v : Bytes) :
    sget (sput s k v) k = some v := by
  induction s with
  | nil => simp [sput, sget]
  | cons kv rest ih =>
    obtain ⟨k', v'⟩ := kv
    by_cases h : k' = k <;> simp [sput, sget, h, ih]

theorem sget_sput_ne : ∀ (s : Store) (k v k' : Bytes), k' ≠ k →
    sget (sput s k v) k' = sget s k'
  | [], k, v, k', h => by
    simp [sput, sget, Ne.symm h]
  | (k₀, v₀) :: rest, k, v, k', h => by
    by_cases h0 : k₀ = k
    · subst h0
      simp [sput, sget, Ne.symm h]
    · simp only [sput, if_neg h0, sget, sget_sput_ne rest k v k' h]

theorem sget_sdel_self : ∀ (s : Store) (k : Bytes), sget (sdel s k) k = none
  | [], _ => by simp [sdel, sget]
  | (k', v') :: rest, k => by
    by_cases h : k' = k
    · simpa [sdel, h] using sget_sdel_self rest k
    · simpa [sdel, sget, h] using sget_sdel_self rest k

theorem sget_sdel_ne : ∀ (s : Store) (k k' : Bytes), k' ≠ k →
    sget (sdel s k) k' = sget s k'
  | [], _, _, _ => by simp [sdel]
  | (k₀, v₀) :: rest, k, k', h => by
    by_cases h0 : k₀ = k
    · subst h0
      simpa [sdel, sget, Ne.symm h] using sget_sdel_ne rest k₀ k' h
    · simp only [sdel, if_neg h0, sget, sget_sdel_ne rest k k' h]

theorem sget_eq_some_of_mem : ∀ (s : Store) (k v : Bytes),
    nodupKeys s → (k, v) ∈ s → sget s k = some v
  | [], _, _, _, hmem => by cases hmem
  | (k₀, v₀) :: rest, k, v, hnd, hmem => by
    have hnd' : nodupKeys rest := by
      simpa [nodupKeys, keysOf] using (List.nodup_cons.mp hnd).2
    rcases List.mem_cons.mp hmem with hmem | hmem
    · cases hmem; simp [sget]
    · have hk : k₀ ≠ k := by
        intro h; subst h
        exact (List.nodup_cons.mp hnd).1
          (by simpa [keysOf] using List.mem_map_of_mem Prod.fst hmem)
      simp [sget, hk, sget_eq_some_of_mem rest k v hnd' hmem]

theorem mem_of_sget_eq_some : ∀ (s : Store) (k v : Bytes),
    sget s k = some v → (k, v) ∈ s
  | [], _, _, h => by simp [sget] at h
  | (k₀, v₀) :: rest, k, v, h => by
    by_cases h0 : k₀ = k
    · subst h0
      have h' : v₀ = v := by simpa [sget] using h
      subst h'; exact List.mem_cons_self _ _
    · simp only [sget, if_neg h0] at h
      exact List.mem_cons_of_mem _ (mem_of_sget_eq_some rest k v h)

-- DualBadgerDatabase -------------------------------------------------------

/-- The distinguished NotFound condition (`badger.ErrKeyNotFound`). -/
inductive DBError where
  | keyNotFound
deriving DecidableEq, Repr

instance {ε α : Type} [DecidableEq ε] [DecidableEq α] :
    DecidableEq (Except ε α) := fun a b =>
  match a, b with
  | .error e, .error f =>
      if h : e = f then .isTrue (by rw [h])
      else .isFalse (fun hc => h (Except.error.inj hc))
  | .ok x, .ok y =>
      if h : x = y then .isTrue (by rw [h])
      else .isFalse (fun hc => h (Except.ok.inj hc))
  | .error _, .ok _ => .isFalse (fun hc => Except.noConfusion hc)
  | .ok _, .error _ => .isFalse (fun hc => Except.noConfusion hc)

/-- `DualBadgerDatabase`: an optional read-only archive store plus the
read-write current store.  `NewDualBadgerDatabase` sets `hasArchive`
exactly when an archive path is given and then opens `archiveDB`, so the
constructed states have `hasArchive ↔ archiveDB ≠ nil`; the embedding
folds the pair into an `Option`. -/
structure DualState where
  archive : Option Store
  current : Store
  finalityHeight : Nat
deriving DecidableEq, Repr

/-- `BadgerDatabase.Get` on a single store. -/
def storeGet (s : Store) (key : Bytes) : Except DBError Bytes :=
  match sget s key with
  | some v => .ok v
  | none => .error .keyNotFound

/-- `DualBadgerDatabase.Get`: try current first; on NotFound fall back to
the archive when present; otherwise NotFound. -/
def dualGet (db : DualState) (key : Bytes) : Except DBError Bytes :=
  match storeGet db.current key with
  | .ok v => .ok v
  | .error .keyNotFound =>
      match db.archive with
      | some a => storeGet a key
      | none => .error .keyNotFound

/-- `BadgerDatabase.Has` on a single store. -/
def storeHas (s : Store) (key : Bytes) : Bool :=
  (sget s key).isSome

/-- `DualBadgerDatabase.Has`: current first, then the archive if present. -/
def dualHas (db : DualState) (key : Bytes) : Bool :=
  if storeHas db.current key then true
  else
    match db.archive with
    | some a => storeHas a key
    | none => false

/-- `DualBadgerDatabase.Put` writes to the current store only. -/
def dualPut (db : DualState) (key value : Bytes) : DualState :=
  { db with current := sput db.current key value }

/-- `DualBadgerDatabase.Delete` removes from the current store only. -/
def dualDelete (db : DualState) (key : Bytes) : DualState :=
  { db with current := sdel db.current key }

-- badgerBatch ---------------------------------------------------------------

/-- One buffered batch operation (`batchEntry`). -/
structure BatchEntry where
  value : Bytes
  del : Bool
deriving DecidableEq, Repr

/-- The Go `map[string]*batchEntry` behind `badgerBatch.entries`,
as an association list where assignment replaces the existing binding. -/
abbrev Batch := List (Bytes × BatchEntry)

/-- Go map assignment `entries[string(key)] = e`. -/
def mapInsert : Batch → Bytes → BatchEntry → Batch
  | [], k, e => [(k, e)]
  | (k', e') :: rest, k, e =>
      if k' = k then (k, e) :: rest else (k', e') :: mapInsert rest k e

/-- `badgerBatch.Put`: buffer a put entry for the key. -/
def batchPut (b : Batch) (k v : Bytes) : Batch :=
  mapInsert b k ⟨v, false⟩

/-- `badgerBatch.Delete`: buffer a delete entry for the key (the Go code
stores `&batchEntry{delete: true}` with a nil value). -/
def batchDelete (b : Batch) (k : Bytes) : Batch :=
  mapInsert b k ⟨[], true⟩

/-- Keys of a batch. -/
def batchKeys (b : Batch) : List Bytes := b.map Prod.fst

/-- A batch binds each key at most once (true of every batch built by
`Put`/`Delete`, since Go map assignment replaces the binding). -/
def batchNodup (b : Batch) : Prop := (batchKeys b).Nodup

instance (b : Batch) : Decidable (batchNodup b) := by
  unfold batchNodup
  infer_instance

/-- Lookup of the buffered entry for a key. -/
def batchFind : Batch → Bytes → Option BatchEntry
  | [], _ => none
  | (k', e') :: rest, k => if k' = k then some e' else batchFind rest k

/-- `badgerBatch.Write`: apply every buffered entry inside one
transaction — `txn.Delete` for delete entries, `txn.Set` otherwise.
(Go map iteration order is unspecified; with at most one entry per key
the resulting store does not depend on it, and the embedding applies the
entries in list order.) -/
def batchWrite (b : Batch) (st : Store) : Store :=
  b.foldl (fun s ke => if ke.2.del then sdel s ke.1 else sput s ke.1 ke.2.value) st

theorem batchFind_mapInsert_self : ∀ (b : Batch) (k : Bytes) (e : BatchEntry),
    batchFind (mapInsert b k e) k = some e
  | [], _, _ => by simp [mapInsert, batchFind]
  | (k₀, e₀) :: rest, k, e => by
    by_cases h : k₀ = k <;>
      simp [mapInsert, batchFind, h, batchFind_mapInsert_self rest k e]

theorem batchFind_mapInsert_ne : ∀ (b : Batch) (k k' : Bytes) (e : BatchEntry),
    k' ≠ k → batchFind (mapInsert b k e) k' = batchFind b k'
  | [], k, k', e, h => by simp [mapInsert, batchFind, Ne.symm h]
  | (k₀, e₀) :: rest, k, k', e, h => by
    by_cases h0 : k₀ = k
    · subst h0
      simp [mapInsert, batchFind, Ne.symm h]
    · simp only [mapInsert, if_neg h0, batchFind,
        batchFind_mapInsert_ne rest k k' e h]

/-- Keys after an insert come from the inserted key or the old keys. -/
theorem mapInsert_keys_sub : ∀ (b : Batch) (k : Bytes) (e : BatchEntry)
    {k' : Bytes}, k' ∈ batchKeys (mapInsert b k e) → k' = k ∨ k' ∈ batchKeys b
  | [], k, e, k', h => by simpa [mapInsert, batchKeys] using h
  | (k₀, e₀) :: rest, k, e, k', h => by
    by_cases h0 : k₀ = k
    · subst h0
      simpa [mapInsert, batchKeys] using h
    · simp only [mapInsert, if_neg h0, batchKeys, List.map_cons,
        List.mem_cons] at h
      rcases h with h | h
      · exact Or.inr (by simp [batchKeys, h])
      · rcases mapInsert_keys_sub rest k e h with h | h
        · exact Or.inl h
        · exact Or.inr (List.mem_cons_of_mem _ h)

theorem batchNodup_mapInsert : ∀ (b : Batch) (k : Bytes) (e : BatchEntry),
    batchNodup b → batchNodup (mapInsert b k e)
  | [], k, e, _ => by simp [mapInsert, batchNodup, batchKeys]
  | (k₀, e₀) :: rest, k, e, hnd => by
    have hnd0 := (List.nodup_cons.mp hnd).1
    have hnd' : batchNodup rest := (List.nodup_cons.mp hnd).2
    by_cases h : k₀ = k
    · subst h
      simpa [mapInsert, batchNodup, batchKeys] using hnd
    · have hrec := batchNodup_mapInsert rest k e hnd'
      have hmem : k₀ ∉ batchKeys (mapInsert rest k e) := by
        intro hk
        rcases (mapInsert_keys_sub rest k e) hk with hk | hk
        · exact h hk
        · exact hnd0 hk
      have hrw : mapInsert ((k₀, e₀) :: rest) k e = (k₀, e₀) :: mapInsert rest k e := by
        simp [mapInsert, h]
      unfold batchNodup
      rw [hrw]
      exact List.nodup_cons.mpr ⟨hmem, hrec⟩

/-- Unfolding one step of `batchWrite`. -/
theorem batchWrite_cons (k₀ : Bytes) (e₀ : BatchEntry) (rest : Batch) (st : Store) :
    batchWrite ((k₀, e₀) :: rest) st
      = batchWrite rest (if e₀.del then sdel st k₀ else sput st k₀ e₀.value) := by
  by_cases hd : e₀.del <;> simp [batchWrite, hd]

/-- Applying entries that do not mention `k` leaves `sget · k` unchanged. -/
theorem batchWrite_sget_not_mem : ∀ (b : Batch) (st : Store) (k : Bytes),
    k ∉ batchKeys b → sget (batchWrite b st) k = sget st k
  | [], st, k, _ => rfl
  | (k₀, e₀) :: rest, st, k, h => by
    have hk : k ≠ k₀ := by
      intro hh; exact h (by simp [batchKeys, hh])
    have h' : k ∉ batchKeys rest := fun hh => h (List.mem_cons_of_mem _ hh)
    rw [batchWrite_cons, batchWrite_sget_not_mem rest _ k h']
    by_cases hd : e₀.del <;>
      simp [hd, sget_sdel_ne st k₀ k hk, sget_sput_ne st k₀ e₀.value k hk]

/-- The committed value of a key is decided by its unique buffered entry. -/
theorem batchWrite_sget (b : Batch) (st : Store) (k : Bytes)
    (hnd : batchNodup b) :
    sget (batchWrite b st) k =
      match batchFind b k with
      | some e => if e.del then none else some e.value
      | none => sget st k := by
  induction b generalizing st with
  | nil => rfl
  | cons ke rest ih =>
    obtain ⟨k₀, e₀⟩ := ke
    have hnd0 := (List.nodup_cons.mp hnd).1
    have hnd' : batchNodup rest := (List.nodup_cons.mp hnd).2
    have hstep : batchWrite ((k₀, e₀) :: rest) st
        = batchWrite rest (if e₀.del then sdel st k₀ else sput st k₀ e₀.value) := by
      by_cases hd : e₀.del <;> simp [batchWrite, hd]
    by_cases h0 : k₀ = k
    · subst h0
      have hnot : k₀ ∉ batchKeys rest := by simpa [batchKeys] using hnd0
      rw [hstep, batchWrite_sget_not_mem rest _ k₀ hnot]
      by_cases hd : e₀.del <;>
        simp [batchFind, hd, sget_sdel_self, sget_sput_self]
    · rw [hstep, ih _ hnd']
      have : batchFind ((k₀, e₀) :: rest) k = batchFind rest k := by
        simp [batchFind, h0]
      rw [this]
      cases hfind : batchFind rest k with
      | some e => rfl
      | none =>
        by_cases hd : e₀.del <;>
          simp [hd, sget_sdel_ne st k₀ k (Ne.symm h0),
            sget_sput_ne st k₀ e₀.value k (Ne.symm h0)]

-- BadgerAncientStore --------------------------------------------------------

/-- `makeAncientKey`: `kind ++ ":" ++ bigEndian(number)` (58 is ':'). -/
def makeAncientKey (kind : Bytes) (number : Nat) : Bytes :=
  kind ++ [58] ++ encodeUint64 number

/-- The five ancient tables, as byte strings:
"headers", "hashes", "bodies", "receipts", "diffs". -/
def ancientTables : List Bytes :=
  [[104, 101, 97, 100, 101, 114, 115], [104, 97, 115, 104, 101, 115],
   [98, 111, 100, 105, 101, 115], [114, 101, 99, 101, 105, 112, 116, 115],
   [100, 105, 102, 102, 115]]

/-- The `"ancient-count"` metadata key. -/
def ancientCountKey : Bytes :=
  [97, 110, 99, 105, 101, 110, 116, 45, 99, 111, 117, 110, 116]

/-- The `"ancient-tail"` metadata key. -/
def ancientTailKey : Bytes :=
  [97, 110, 99, 105, 101, 110, 116, 45, 116, 97, 105, 108]

/-- `BadgerAncientStore`: the backing key-value data plus the `ancients`
(exclusive upper bound) and `tail` (inclusive lower bound) counters. -/
structure AncientState where
  db : Store
  ancients : Nat
  tail : Nat
deriving DecidableEq, Repr

/-- The loop body of `BadgerAncientStore.AncientRange`: fetch up to
`count` consecutive items starting at `idx`, stopping at the first
missing item, and — only when `maxBytes > 0` — stopping once appending
the next item would exceed `maxBytes`, except that a first over-sized
item is still returned. -/
def ancientRangeGo (db : Store) (kind : Bytes) (maxBytes : Nat) :
    Nat → Nat → Nat → List Bytes → List Bytes
  | 0, _, _, items => items
  | c + 1, idx, totalBytes, items =>
    match sget db (makeAncientKey kind idx) with
    | none => items
    | some data =>
      if 0 < maxBytes ∧ maxBytes < totalBytes + data.length then
        if items.isEmpty then items ++ [data] else items
      else
        ancientRangeGo db kind maxBytes c (idx + 1)
          (totalBytes + data.length) (items ++ [data])

/-- `BadgerAncientStore.AncientRange(kind, start, count, maxBytes)`. -/
def ancientRange (db : Store) (kind : Bytes) (start count maxBytes : Nat) :
    List Bytes :=
  ancientRangeGo db kind maxBytes count start 0 []

/-- Total byte size of a list of items. -/
def sumBytes (items : List Bytes) : Nat := (items.map List.length).sum

/-- Delete `makeAncientKey kind i` for `i ∈ [lo, hi)` across all tables
(the deletion loops inside `TruncateAncients`/`TruncateTail`). -/
def deleteTableRange (db : Store) (lo hi : Nat) : Store :=
  ancientTables.foldl
    (fun d kind => (List.range' lo (hi - lo)).foldl
      (fun d i => sdel d (makeAncientKey kind i)) d) db

/-- `BadgerAncientStore.TruncateAncients(n)`: a no-op when `n ≥ ancients`;
otherwise deletes items `[n, ancients)` from every table and stores the
new `ancients` count.  It performs no check against `tail` and never
returns an invariant error. -/
def truncateAncients (s : AncientState) (n : Nat) : AncientState :=
  if s.ancients ≤ n then s
  else
    { db := sput (deleteTableRange s.db n s.ancients) ancientCountKey (encodeUint64 n),
      ancients := n,
      tail := s.tail }

/-- `BadgerAncientStore.TruncateHead(n)`: records the previous head and
delegates to `TruncateAncients`; the only error it can surface is a
backend I/O failure, absent from the model. -/
def truncateHead (s : AncientState) (n : Nat) : Nat × AncientState :=
  (s.ancients, truncateAncients s n)

/-- `BadgerAncientStore.TruncateTail(n)`: advances `tail` by `n`, deleting
the dropped items, but errors (state unchanged) when the new tail would
exceed `ancients`. -/
def truncateTail (s : AncientState) (n : Nat) :
    Except String (Nat × AncientState) :=
  let newTail := s.tail + n
  if s.ancients < newTail then .error "truncate tail beyond ancients"
  else
    .ok (s.tail,
      { db := sput (deleteTableRange s.db s.tail newTail) ancientTailKey
          (encodeUint64 newTail),
        ancients := s.ancients,
        tail := newTail })

theorem sumBytes_append (a b : List Bytes) :
    sumBytes (a ++ b) = sumBytes a + sumBytes b := by
  simp [sumBytes]

/-- `ancientRangeGo` never shrinks the accumulated item list. -/
theorem ancientRangeGo_length_mono (db : Store) (kind : Bytes)
    (maxBytes : Nat) :
    ∀ (c idx totalBytes : Nat) (items : List Bytes),
      items.length ≤ (ancientRangeGo db kind maxBytes c idx totalBytes items).length := by
  intro c
  induction c with
  | zero => intro idx tb items; simp [ancientRangeGo]
  | succ c ih =>
    intro idx tb items
    simp only [ancientRangeGo]
    cases sget db (makeAncientKey kind idx) with
    | none => simp
    | some data =>
      by_cases hlim : 0 < maxBytes ∧ maxBytes < tb + data.length
      · by_cases hemp : items.isEmpty <;> simp [hlim, hemp]
      · simp only [if_neg hlim]
        calc items.length ≤ (items ++ [data]).length := by simp
          _ ≤ _ := ih (idx + 1) (tb + data.length) (items ++ [data])

/-- When `maxBytes > 0`, the loop keeps the running total within
`maxBytes` (unless the very first item already exceeds it, in which case
exactly that one item is returned). -/
theorem ancientRangeGo_size_bound (db : Store) (kind : Bytes)
    (maxBytes : Nat) (hpos : 0 < maxBytes) :
    ∀ (c idx totalBytes : Nat) (items : List Bytes),
      totalBytes = sumBytes items → sumBytes items ≤ maxBytes →
      (ancientRangeGo db kind maxBytes c idx totalBytes items).length ≤ 1 ∨
        sumBytes (ancientRangeGo db kind maxBytes c idx totalBytes items) ≤ maxBytes := by
  intro c
  induction c with
  | zero =>
    intro idx tb items htb hle
    exact Or.inr (by simpa [ancientRangeGo] using hle)
  | succ c ih =>
    intro idx tb items htb hle
    simp only [ancientRangeGo]
    cases sget db (makeAncientKey kind idx) with
    | none => exact Or.inr (by simpa using hle)
    | some data =>
      by_cases hlim : 0 < maxBytes ∧ maxBytes < tb + data.length
      · by_cases hemp : items.isEmpty
        · simp only [if_pos hlim, if_pos hemp]
          exact Or.inl (by simp [List.isEmpty_iff.mp hemp])
        · simp only [if_pos hlim, if_neg hemp]
          exact Or.inr hle
      · simp only [if_neg hlim]
        have hfit : tb + data.length ≤ maxBytes := by
          rcases Nat.lt_or_ge maxBytes (tb + data.length) with h | h
          · exact absurd ⟨hpos, h⟩ hlim
          · exact h
        exact ih (idx + 1) (tb + data.length) (items ++ [data])
          (by simp [sumBytes_append, sumBytes, htb])
          (by rw [sumBytes_append, ← htb]; simpa [sumBytes] using hfit)

-- Archiver ------------------------------------------------------------------

/-- The height-marker key `"LastBlock"` consulted by
`Archiver.getCurrentHeight`. -/
def lastBlockKey : Bytes := [76, 97, 115, 116, 66, 108, 111, 99, 107]

/-- `Archiver.getCurrentHeight`: reads the `"LastBlock"` marker through
the tiered `Get` (current first, archive fallback); a failed `Get` means
height `0` with no error, a value whose length is not eight bytes is an
error, otherwise the eight bytes decode big-endian. -/
def getCurrentHeight (db : DualState) : Except String Nat :=
  match dualGet db lastBlockKey with
  | .error _ => .ok 0
  | .ok data =>
      if data.length ≠ 8 then .error "invalid height data"
      else .ok (beFold data)

/-- `shouldArchive`: the key-eligibility predicate.  The source returns
`true` for every key (the TODO notes that key parsing is unimplemented). -/
def shouldArchive (_key : Bytes) (_finalizedHeight : Nat) : Bool := true

/-- `badgerBatch.ValueSize` of the pending chunk: `Put` adds
`len(key) + len(value)` per entry. -/
def valueSize (l : List (Bytes × Bytes)) : Nat :=
  l.foldl (fun s kv => s + kv.1.length + kv.2.length) 0

/-- One externally visible step of the migration loop: an atomic archive
batch commit (`archiveBatch.Write`), or a single `currentDB.Delete`. -/
inductive Ev where
  | commit (ps : List (Bytes × Bytes))
  | delkey (k : Bytes)
deriving DecidableEq, Repr

/-- Writing a list of pairs into a store (`archiveBatch.Write`). -/
def foldPut (a : Store) (ps : List (Bytes × Bytes)) : Store :=
  ps.foldl (fun st kv => sput st kv.1 kv.2) a

/-- Apply one migration event to the dual database. -/
def applyEv (db : DualState) : Ev → DualState
  | .commit ps =>
      { db with archive := Option.map (fun a => foldPut a ps) db.archive }
  | .delkey k => { db with current := sdel db.current k }

/-- Apply a sequence of migration events. -/
def applyEvents (db : DualState) (es : List Ev) : DualState :=
  es.foldl applyEv db

/-- The events of flushing one chunk: the atomic batch write followed by
the deletes of exactly that chunk's keys. -/
def chunkEvents (ch : List (Bytes × Bytes)) : List Ev :=
  Ev.commit ch :: ch.map (fun kv => Ev.delkey kv.1)

/-- The chunking loop of `archiveFinalized`: keys accumulate in the
archive batch and `keysToDelete`; after every 100th archived key the
batch is written and the chunk's keys are deleted from current; at the
end a final non-empty batch (`ValueSize() > 0`) is written and its keys
deleted. -/
def archiveGo : List (Bytes × Bytes) → List (Bytes × Bytes) → Nat → List Ev
  | [], pending, _ =>
      if 0 < valueSize pending then chunkEvents pending else []
  | kv :: rest, pending, archived =>
      let archived' := archived + 1
      if archived' % 100 = 0 then
        chunkEvents (pending ++ [kv]) ++ archiveGo rest [] archived'
      else archiveGo rest (pending ++ [kv]) archived'

/-- The full event trace of one archiving cycle over the iterated
snapshot of the current store. -/
def archiveEvents (pairs : List (Bytes × Bytes)) : List Ev :=
  archiveGo pairs [] 0

/-- Keys deleted by a trace. -/
def delKeysOf (es : List Ev) : List Bytes :=
  es.filterMap (fun e => match e with | .delkey k => some k | _ => none)

/-- `Archiver`: the dual database plus `finalityDelay` and the
cumulative counters. -/
structure ArchiverState where
  db : DualState
  finalityDelay : Nat
  totalArchived : Nat
  totalDeleted : Nat
deriving DecidableEq, Repr

/-- `Archiver.archiveFinalized`: no-op without an archive database; reads
the current height (0 or ≤ finalityDelay means nothing to do, a marker
decoding failure is an error); otherwise migrates every eligible key of
the current snapshot to the archive in committed chunks, deletes the
migrated keys from current, adds the counts to the counters and stores
the finalized height. -/
def archiveFinalized (a : ArchiverState) : ArchiverState × Except String Unit :=
  match a.db.archive with
  | none => (a, .ok ())
  | some _ =>
    match getCurrentHeight a.db with
    | .error e => (a, .error ("failed to get current height: " ++ e))
    | .ok currentHeight =>
      if currentHeight = 0 then (a, .ok ())
      else if currentHeight ≤ a.finalityDelay then (a, .ok ())
      else
        let finalizedHeight := currentHeight - a.finalityDelay
        let pairs := a.db.current.filter
          (fun kv => shouldArchive kv.1 finalizedHeight)
        let es := archiveEvents pairs
        let db' := applyEvents a.db es
        ({ db := { db' with finalityHeight := finalizedHeight },
           finalityDelay := a.finalityDelay,
           totalArchived := a.totalArchived + pairs.length,
           totalDeleted := a.totalDeleted + (delKeysOf es).length },
         .ok ())

-- Archiver proof infrastructure --------------------------------------------

/-- The archive-side view of a key. -/
def archGet (db : DualState) (k : Bytes) : Option Bytes :=
  db.archive.bind (fun a => sget a k)

theorem applyEv_commit (db : DualState) (ps : List (Bytes × Bytes)) :
    applyEv db (.commit ps)
      = { db with archive := Option.map (fun a => foldPut a ps) db.archive } := rfl

theorem foldPut_sget_not_mem : ∀ (ps : List (Bytes × Bytes)) (a : Store)
    (k : Bytes), (∀ kv ∈ ps, kv.1 ≠ k) → sget (foldPut a ps) k = sget a k
  | [], _, _, _ => rfl
  | kv₀ :: ps, a, k, h => by
    have h0 : kv₀.1 ≠ k := h kv₀ (List.mem_cons_self _ _)
    have h' : ∀ kv ∈ ps, kv.1 ≠ k := fun kv hm => h kv (List.mem_cons_of_mem _ hm)
    calc sget (foldPut (sput a kv₀.1 kv₀.2) ps) k
        = sget (sput a kv₀.1 kv₀.2) k := foldPut_sget_not_mem ps _ k h'
      _ = sget a k := by
          rw [sget_sput_ne a kv₀.1 kv₀.2 k (fun hh => h0 hh.symm)]

theorem foldPut_sget_mem : ∀ (ps : List (Bytes × Bytes)) (a : Store)
    (k v : Bytes), nodupKeys ps → (k, v) ∈ ps → sget (foldPut a ps) k = some v
  | [], _, _, _, _, hmem => by cases hmem
  | (k₀, v₀) :: ps, a, k, v, hnd, hmem => by
    have hnd' : nodupKeys ps := (List.nodup_cons.mp hnd).2
    rcases List.mem_cons.mp hmem with heq | hmem'
    · have hk : k₀ = k := (congrArg Prod.fst heq).symm
      have hv : v₀ = v := (congrArg Prod.snd heq).symm
      have hnot : ∀ kv ∈ ps, kv.1 ≠ k := by
        intro kv hm he
        exact (List.nodup_cons.mp hnd).1
          (by rw [hk, ← he]; simpa [keysOf] using List.mem_map_of_mem Prod.fst hm)
      calc sget (foldPut (sput a k₀ v₀) ps) k
          = sget (sput a k₀ v₀) k := foldPut_sget_not_mem ps _ k hnot
        _ = some v := by rw [hk, hv]; exact sget_sput_self a k v
    · exact foldPut_sget_mem ps _ k v hnd' hmem'

/-- All events generated by `archiveGo` only mention pairs and keys from
the not-yet-flushed input. -/
def EvTouches (l : List (Bytes × Bytes)) : Ev → Prop
  | .commit ps => ∀ kv ∈ ps, kv ∈ l
  | .delkey k => k ∈ keysOf l

theorem EvTouches.mono {l l' : List (Bytes × Bytes)} {e : Ev}
    (h : EvTouches l e) (hsub : ∀ kv ∈ l, kv ∈ l') : EvTouches l' e := by
  cases e with
  | commit ps => exact fun kv hm => hsub kv (h kv hm)
  | delkey k =>
    obtain ⟨kv, hkv, hfst⟩ := List.mem_map.mp h
    exact List.mem_map.mpr ⟨kv, hsub kv hkv, hfst⟩

theorem chunkEvents_touches (ch : List (Bytes × Bytes)) :
    ∀ e ∈ chunkEvents ch, EvTouches ch e := by
  intro e he
  rcases List.mem_cons.mp he with he | he
  · subst he; exact fun kv hm => hm
  · obtain ⟨kv, hkv, hfst⟩ := List.mem_map.mp he
    subst hfst
    exact List.mem_map.mpr ⟨kv, hkv, rfl⟩

theorem archiveGo_touches : ∀ (rest pending : List (Bytes × Bytes)) (n : Nat),
    ∀ e ∈ archiveGo rest pending n, EvTouches (pending ++ rest) e
  | [], pending, n => by
    intro e he
    simp only [archiveGo] at he
    by_cases hv : 0 < valueSize pending
    · rw [if_pos hv] at he
      exact (chunkEvents_touches pending e he).mono (fun kv hm => by simpa using hm)
    · rw [if_neg hv] at he; cases he
  | kv₀ :: rest, pending, n => by
    intro e he
    simp only [archiveGo] at he
    by_cases hmod : (n + 1) % 100 = 0
    · rw [if_pos hmod] at he
      rcases List.mem_append.mp he with he | he
      · exact (chunkEvents_touches _ e he).mono
          (fun kv hm => by
            rcases List.mem_append.mp hm with hm | hm
            · exact List.mem_append.mpr (Or.inl hm)
            · simp only [List.mem_singleton] at hm
              subst hm
              exact List.mem_append.mpr (Or.inr (List.mem_cons_self _ _)))
      · exact (archiveGo_touches rest [] (n + 1) e he).mono
          (fun kv hm => by
            simp only [List.nil_append] at hm
            exact List.mem_append.mpr (Or.inr (List.mem_cons_of_mem _ hm)))
    · rw [if_neg hmod] at he
      exact (archiveGo_touches rest (pending ++ [kv₀]) (n + 1) e he).mono
        (fun kv hm => by
          rw [List.append_assoc, List.singleton_append] at hm
          exact hm)

/-- An event that does not mention key `k` changes neither view of `k`. -/
theorem applyEv_untouched {l : List (Bytes × Bytes)} (db : DualState)
    (e : Ev) (k : Bytes) (hk : k ∉ keysOf l) (ht : EvTouches l e) :
    sget (applyEv db e).current k = sget db.current k ∧
      archGet (applyEv db e) k = archGet db k := by
  cases e with
  | commit ps =>
    refine ⟨rfl, ?_⟩
    have hne : ∀ kv ∈ ps, kv.1 ≠ k := by
      intro kv hm he
      exact hk (by simpa [keysOf, ← he] using
        List.mem_map_of_mem Prod.fst (ht kv hm))
    cases ha : db.archive with
    | none => simp [applyEv, archGet, ha]
    | some a => simp [applyEv, archGet, ha, foldPut_sget_not_mem ps a k hne]
  | delkey k' =>
    have hne : k ≠ k' := by
      intro he; subst he; exact hk ht
    exact ⟨sget_sdel_ne db.current k' k hne, rfl⟩

theorem applyEvents_untouched {l : List (Bytes × Bytes)} :
    ∀ (es : List Ev) (db : DualState) (k : Bytes), k ∉ keysOf l →
      (∀ e ∈ es, EvTouches l e) →
      sget (applyEvents db es).current k = sget db.current k ∧
        archGet (applyEvents db es) k = archGet db k
  | [], _, _, _, _ => ⟨rfl, rfl⟩
  | e :: es, db, k, hk, ht => by
    have h1 := applyEv_untouched db e k hk (ht e (List.mem_cons_self _ _))
    have h2 := applyEvents_untouched es (applyEv db e) k hk
      (fun e' he' => ht e' (List.mem_cons_of_mem _ he'))
    exact ⟨h2.1.trans h1.1, h2.2.trans h1.2⟩

theorem applyEvents_append (db : DualState) (xs ys : List Ev) :
    applyEvents db (xs ++ ys) = applyEvents (applyEvents db xs) ys :=
  List.foldl_append _ _ _ _

theorem applyEv_archive_isSome (db : DualState) (e : Ev)
    (h : db.archive.isSome) : (applyEv db e).archive.isSome := by
  cases e with
  | commit ps =>
    cases ha : db.archive with
    | none => rw [ha] at h; cases h
    | some a => simp [applyEv, ha]
  | delkey k => exact h

theorem applyEvents_archive_isSome : ∀ (es : List Ev) (db : DualState),
    db.archive.isSome → (applyEvents db es).archive.isSome
  | [], _, h => h
  | e :: es, db, h =>
    applyEvents_archive_isSome es (applyEv db e) (applyEv_archive_isSome db e h)

/-- The tiered read decomposed into the two per-tier views. -/
theorem dualGet_char (db : DualState) (k : Bytes) :
    dualGet db k =
      match sget db.current k with
      | some v => .ok v
      | none =>
          match archGet db k with
          | some v => .ok v
          | none => .error .keyNotFound := by
  cases hc : sget db.current k with
  | some v => simp [dualGet, storeGet, hc]
  | none =>
    cases ha : db.archive with
    | none => simp [dualGet, storeGet, hc, archGet, ha]
    | some a =>
      cases hga : sget a k with
      | some v => simp [dualGet, storeGet, hc, archGet, ha, hga]
      | none => simp [dualGet, storeGet, hc, archGet, ha, hga]

/-- The migrated key stays readable through the tiered `Get`. -/
def Readable (db : DualState) (k v : Bytes) : Prop :=
  dualGet db k = .ok v

theorem readable_of_current {db : DualState} {k v : Bytes}
    (h : sget db.current k = some v) : Readable db k v := by
  unfold Readable
  rw [dualGet_char, h]

theorem readable_of_archive {db : DualState} {k v : Bytes}
    (hc : sget db.current k = none) (ha : archGet db k = some v) :
    Readable db k v := by
  unfold Readable
  rw [dualGet_char, hc, ha]

/-- Iterated deletion. -/
def delAll (cur : Store) (ks : List Bytes) : Store :=
  ks.foldl sdel cur

theorem delAll_sget : ∀ (ks : List Bytes) (cur : Store) (k : Bytes),
    sget (delAll cur ks) k = if k ∈ ks then none else sget cur k
  | [], cur, k => by simp [delAll]
  | k₀ :: ks, cur, k => by
    rw [show delAll cur (k₀ :: ks) = delAll (sdel cur k₀) ks from rfl,
      delAll_sget ks (sdel cur k₀) k]
    by_cases h : k = k₀
    · subst h
      by_cases hmem : k ∈ ks
      · simp [hmem]
      · simp [hmem, sget_sdel_self]
    · rw [sget_sdel_ne cur k₀ k h]
      simp [List.mem_cons, h]

/-- Applying only delete events updates only the current store, by
iterated deletion. -/
theorem applyEvents_delkeys : ∀ (ks : List Bytes) (db : DualState),
    applyEvents db (ks.map Ev.delkey)
      = { db with current := delAll db.current ks }
  | [], db => rfl
  | k :: ks, db => by
    simp only [List.map_cons, applyEvents, List.foldl_cons]
    exact applyEvents_delkeys ks (applyEv db (.delkey k))

/-- Rewriting the delete events of a chunk as a mapped key list. -/
theorem delkey_map (ch : List (Bytes × Bytes)) :
    ch.map (fun kv => Ev.delkey kv.1) = (keysOf ch).map Ev.delkey := by
  simp [keysOf, List.map_map, Function.comp]

/-- A prefix of a mapped list is the image of a prefix. -/
theorem prefix_map_exists {α β : Type} (f : α → β) :
    ∀ (l : List α) (q : List β), q <+: l.map f →
      ∃ l', l' <+: l ∧ q = l'.map f
  | l, [], _ => ⟨[], List.nil_prefix, rfl⟩
  | [], q :: qs, h => by
    simp only [List.map_nil] at h
    exact absurd (List.eq_nil_of_prefix_nil h) (by simp)
  | x :: l, q :: qs, h => by
    simp only [List.map_cons] at h
    obtain ⟨t, ht⟩ := h
    injection ht with h1 h2
    obtain ⟨l', hl', hq⟩ := prefix_map_exists f l qs ⟨t, h2⟩
    exact ⟨x :: l', List.cons_prefix_cons.mpr ⟨rfl, hl'⟩, by simp [h1, hq]⟩

/-- Splitting a prefix of a concatenation. -/
theorem prefix_append_cases {α : Type} :
    ∀ (a : List α) (b p : List α), p <+: a ++ b →
      p <+: a ∨ ∃ q, q <+: b ∧ p = a ++ q
  | [], b, p, h => Or.inr ⟨p, h, rfl⟩
  | x :: a, b, [], _ => Or.inl List.nil_prefix
  | x :: a, b, y :: p, h => by
    simp only [List.cons_append] at h
    obtain ⟨hy, hp⟩ := List.cons_prefix_cons.mp h
    rcases prefix_append_cases a b p hp with hl | ⟨q, hq, hpq⟩
    · exact Or.inl (by rw [hy]; exact List.cons_prefix_cons.mpr ⟨rfl, hl⟩)
    · exact Or.inr ⟨q, hq, by rw [hy, hpq]; rfl⟩

/-- A full chunk flush rewritten as a single state update. -/
theorem chunk_apply (db : DualState) (ch : List (Bytes × Bytes)) :
    applyEvents db (chunkEvents ch)
      = { applyEv db (.commit ch) with
          current := delAll (applyEv db (.commit ch)).current (keysOf ch) } := by
  unfold chunkEvents
  rw [delkey_map]
  simp only [applyEvents, List.foldl_cons]
  exact applyEvents_delkeys (keysOf ch) (applyEv db (.commit ch))

/-- Current-store content of a key after a full chunk flush. -/
theorem chunk_apply_current (db : DualState) (ch : List (Bytes × Bytes))
    (k : Bytes) :
    sget (applyEvents db (chunkEvents ch)).current k
      = if k ∈ keysOf ch then none else sget db.current k := by
  rw [chunk_apply]
  show sget (delAll (applyEv db (.commit ch)).current (keysOf ch)) k = _
  rw [delAll_sget]
  rfl

/-- Archive-store content of a key after a full chunk flush, when the
chunk binds it. -/
theorem chunk_apply_archive_mem (db : DualState) (ch : List (Bytes × Bytes))
    (k v : Bytes) (hnd : nodupKeys ch) (hmem : (k, v) ∈ ch)
    (hsome : db.archive.isSome) :
    archGet (applyEvents db (chunkEvents ch)) k = some v := by
  rw [chunk_apply]
  show archGet { applyEv db (.commit ch) with
      current := delAll (applyEv db (.commit ch)).current (keysOf ch) } k = some v
  obtain ⟨a, ha⟩ := Option.isSome_iff_exists.mp hsome
  simp only [archGet, applyEv, ha, Option.map_some]
  exact foldPut_sget_mem ch a k v hnd hmem

/-- Readability only depends on the two per-tier views of the key. -/
theorem readable_congr {db db' : DualState} {k v : Bytes}
    (hc : sget db'.current k = sget db.current k)
    (ha : archGet db' k = archGet db k) (h : Readable db k v) :
    Readable db' k v := by
  unfold Readable at h ⊢
  rw [dualGet_char] at h ⊢
  rw [hc, ha]
  exact h

/-- A committed chunk that binds `k ↦ v` makes the archive hold it. -/
theorem commit_archGet_mem (db : DualState) (ch : List (Bytes × Bytes))
    (k v : Bytes) (hsome : db.archive.isSome) (hnd : nodupKeys ch)
    (hmem : (k, v) ∈ ch) :
    archGet (applyEv db (.commit ch)) k = some v := by
  obtain ⟨a, ha⟩ := Option.isSome_iff_exists.mp hsome
  simp only [archGet, applyEv, ha, Option.map_some]
  exact foldPut_sget_mem ch a k v hnd hmem

/-- Every prefix of a chunk flush keeps a key of the chunk readable;
keys outside the chunk keep whatever readability they had. -/
theorem chunk_prefix_readable (db : DualState) (ch : List (Bytes × Bytes))
    (k v : Bytes) (hsome : db.archive.isSome) (hnd : nodupKeys ch)
    (hcase : ((k, v) ∈ ch ∧ sget db.current k = some v) ∨
      (k ∉ keysOf ch ∧ Readable db k v)) :
    ∀ p, p <+: chunkEvents ch → Readable (applyEvents db p) k v := by
  intro p hp
  match p, hp with
  | [], _ =>
    rcases hcase with ⟨_, hcur⟩ | ⟨_, hr⟩
    · exact readable_of_current hcur
    · exact hr
  | e :: q, hp =>
    obtain ⟨he, hq⟩ := List.cons_prefix_cons.mp hp
    subst he
    obtain ⟨ch', hch', hqeq⟩ := prefix_map_exists _ ch q hq
    subst hqeq
    have hkeys' : keysOf ch' ⊆ keysOf ch :=
      ((hch'.sublist).map Prod.fst).subset
    set db1 := applyEv db (.commit ch) with hdb1
    have hq_apply : applyEvents db1 (ch'.map (fun kv => Ev.delkey kv.1))
        = { db1 with current := delAll db1.current (keysOf ch') } := by
      rw [delkey_map]
      exact applyEvents_delkeys (keysOf ch') db1
    have happly : applyEvents db (Ev.commit ch :: ch'.map (fun kv => Ev.delkey kv.1))
        = { db1 with current := delAll db1.current (keysOf ch') } := by
      simp only [applyEvents, List.foldl_cons]
      exact hq_apply
    rw [happly]
    rcases hcase with ⟨hmem, hcur⟩ | ⟨hnot, hr⟩
    · have harch : archGet db1 k = some v := commit_archGet_mem db ch k v hsome hnd hmem
      have hcur1 : sget db1.current k = some v := hcur
      by_cases hdel : k ∈ keysOf ch'
      · refine readable_of_archive ?_ ?_
        · show sget (delAll db1.current (keysOf ch')) k = none
          rw [delAll_sget, if_pos hdel]
        · exact harch
      · refine readable_of_current ?_
        show sget (delAll db1.current (keysOf ch')) k = some v
        rw [delAll_sget, if_neg hdel]
        exact hcur1
    · have hne : ∀ kv ∈ ch, kv.1 ≠ k := by
        intro kv hm he
        exact hnot (by rw [← he]; simpa [keysOf] using List.mem_map_of_mem Prod.fst hm)
      have h1 := applyEv_untouched (l := ch) db (.commit ch) k hnot (fun kv hm => hm)
      have hdel : k ∉ keysOf ch' := fun hmem => hnot (hkeys' hmem)
      refine readable_congr ?_ ?_ hr
      · show sget (delAll db1.current (keysOf ch')) k = sget db.current k
        rw [delAll_sget, if_neg hdel]
        exact h1.1
      · exact h1.2

theorem keysOf_append (xs ys : List (Bytes × Bytes)) :
    keysOf (xs ++ ys) = keysOf xs ++ keysOf ys := List.map_append _ _ _

theorem mem_keysOf {l : List (Bytes × Bytes)} {k v : Bytes}
    (h : (k, v) ∈ l) : k ∈ keysOf l :=
  List.mem_map_of_mem Prod.fst h

theorem nodupKeys_disjoint {xs ys : List (Bytes × Bytes)}
    (hnd : nodupKeys (xs ++ ys)) {k : Bytes}
    (hx : k ∈ keysOf xs) (hy : k ∈ keysOf ys) : False := by
  have h : (keysOf xs ++ keysOf ys).Nodup := by
    rw [← keysOf_append]; exact hnd
  exact List.disjoint_of_nodup_append h hx hy

theorem nodupKeys_of_sublist {xs ys : List (Bytes × Bytes)}
    (hsub : List.Sublist xs ys) (hnd : nodupKeys ys) : nodupKeys xs :=
  List.Nodup.sublist (hsub.map Prod.fst) hnd

/-- The central safety invariant of one archiving cycle: at every prefix
of the event trace, every pair of the migrated snapshot stays readable
through the tiered `Get`, and untouched readable keys stay readable. -/
theorem archiveGo_readable :
    ∀ (rest pending : List (Bytes × Bytes)) (n : Nat) (db : DualState)
      (k v : Bytes),
      db.archive.isSome = true →
      nodupKeys (pending ++ rest) →
      (∀ kv ∈ pending ++ rest, sget db.current kv.1 = some kv.2) →
      ((k, v) ∈ pending ++ rest ∨
        (k ∉ keysOf (pending ++ rest) ∧ Readable db k v)) →
      ∀ p, p <+: archiveGo rest pending n → Readable (applyEvents db p) k v
  | [], pending, n, db, k, v, hsome, hnd, h3, h4, p, hp => by
    rw [List.append_nil] at hnd h3 h4
    simp only [archiveGo] at hp
    by_cases hv : 0 < valueSize pending
    · rw [if_pos hv] at hp
      refine chunk_prefix_readable db pending k v hsome hnd ?_ p hp
      rcases h4 with hm | ⟨hnk, hr⟩
      · exact Or.inl ⟨hm, h3 _ hm⟩
      · exact Or.inr ⟨hnk, hr⟩
    · rw [if_neg hv] at hp
      have hpnil : p = [] := List.prefix_nil.mp hp
      subst hpnil
      rcases h4 with hm | ⟨_, hr⟩
      · exact readable_of_current (h3 _ hm)
      · exact hr
  | kv₀ :: rest', pending, n, db, k, v, hsome, hnd, h3, h4, p, hp => by
    have hsplit : pending ++ kv₀ :: rest' = (pending ++ [kv₀]) ++ rest' := by
      rw [List.append_assoc]; rfl
    rw [hsplit] at hnd h3 h4
    by_cases hmod : (n + 1) % 100 = 0
    · have hgo : archiveGo (kv₀ :: rest') pending n
          = chunkEvents (pending ++ [kv₀]) ++ archiveGo rest' [] (n + 1) := by
        simp [archiveGo, hmod]
      rw [hgo] at hp
      set ch := pending ++ [kv₀] with hch
      have hndch : nodupKeys ch :=
        nodupKeys_of_sublist (List.sublist_append_left ch rest') hnd
      have hndrest : nodupKeys rest' :=
        nodupKeys_of_sublist (List.sublist_append_right ch rest') hnd
      rcases prefix_append_cases _ _ p hp with hpc | ⟨q, hq, hpe⟩
      · refine chunk_prefix_readable db ch k v hsome hndch ?_ p hpc
        rcases h4 with hm | ⟨hnk, hr⟩
        · rcases List.mem_append.mp hm with hm' | hm'
          · exact Or.inl ⟨hm', h3 _ hm⟩
          · refine Or.inr ⟨?_, readable_of_current (h3 _ hm)⟩
            intro hk
            exact nodupKeys_disjoint hnd hk (mem_keysOf hm')
        · refine Or.inr ⟨?_, hr⟩
          intro hk
          exact hnk (by rw [keysOf_append]; exact List.mem_append.mpr (Or.inl hk))
      · subst hpe
        rw [applyEvents_append]
        set db' := applyEvents db (chunkEvents ch) with hdb'
        have hsome' : db'.archive.isSome = true :=
          applyEvents_archive_isSome _ db hsome
        have hnd' : nodupKeys ([] ++ rest') := by
          rw [List.nil_append]; exact hndrest
        have h3' : ∀ kv ∈ [] ++ rest', sget db'.current kv.1 = some kv.2 := by
          intro kv hm
          rw [List.nil_append] at hm
          have hnotch : kv.1 ∉ keysOf ch := fun hk =>
            nodupKeys_disjoint hnd hk (List.mem_map_of_mem Prod.fst hm)
          rw [hdb', chunk_apply_current db ch kv.1, if_neg hnotch]
          exact h3 kv (List.mem_append.mpr (Or.inr hm))
        have h4' : (k, v) ∈ [] ++ rest' ∨
            (k ∉ keysOf ([] ++ rest') ∧ Readable db' k v) := by
          rcases h4 with hm | ⟨hnk, hr⟩
          · rcases List.mem_append.mp hm with hm' | hm'
            · refine Or.inr ⟨?_, ?_⟩
              · rw [List.nil_append]
                intro hk
                exact nodupKeys_disjoint hnd (mem_keysOf hm') hk
              · refine readable_of_archive ?_ ?_
                · rw [hdb', chunk_apply_current db ch k,
                    if_pos (mem_keysOf hm')]
                · rw [hdb']
                  exact chunk_apply_archive_mem db ch k v hndch hm' hsome
            · exact Or.inl (by rw [List.nil_append]; exact hm')
          · refine Or.inr ⟨?_, ?_⟩
            · rw [List.nil_append]
              intro hk
              exact hnk (by rw [keysOf_append]; exact List.mem_append.mpr (Or.inr hk))
            · have hnotch : k ∉ keysOf ch := fun hk =>
                hnk (by rw [keysOf_append]; exact List.mem_append.mpr (Or.inl hk))
              have hpres := applyEvents_untouched (l := ch) (chunkEvents ch) db k
                hnotch (chunkEvents_touches ch)
              exact readable_congr hpres.1 hpres.2 hr
        exact archiveGo_readable rest' [] (n + 1) db' k v hsome' hnd' h3' h4' q hq
    · have hgo : archiveGo (kv₀ :: rest') pending n
          = archiveGo rest' (pending ++ [kv₀]) (n + 1) := by
        simp [archiveGo, hmod]
      rw [hgo] at hp
      exact archiveGo_readable rest' (pending ++ [kv₀]) (n + 1) db k v
        hsome hnd h3 h4 p hp

theorem delKeysOf_append (xs ys : List Ev) :
    delKeysOf (xs ++ ys) = delKeysOf xs ++ delKeysOf ys :=
  List.filterMap_append _ _ _

theorem delKeysOf_chunk (ch : List (Bytes × Bytes)) :
    delKeysOf (chunkEvents ch) = keysOf ch := by
  induction ch with
  | nil => rfl
  | cons kv rest ih =>
    simpa [chunkEvents, delKeysOf, keysOf] using
      (by simpa [chunkEvents, delKeysOf, keysOf] using ih :
        rest.filterMap
            ((fun e => match e with | .delkey k => some k | _ => none)
              ∘ (fun kv : Bytes × Bytes => Ev.delkey kv.1))
          = rest.map Prod.fst)

/-- After any event sequence, a key reads as `none` from current exactly
when some event deleted it, and as before otherwise. -/
theorem applyEvents_current_sget : ∀ (es : List Ev) (db : DualState) (k : Bytes),
    sget (applyEvents db es).current k
      = if k ∈ delKeysOf es then none else sget db.current k
  | [], db, k => by simp [applyEvents, delKeysOf]
  | .commit ps :: es, db, k => by
    have hd : delKeysOf (Ev.commit ps :: es) = delKeysOf es := by
      simp [delKeysOf]
    rw [hd,
      show applyEvents db (Ev.commit ps :: es)
        = applyEvents (applyEv db (.commit ps)) es from rfl,
      applyEvents_current_sget es _ k]
    rfl
  | .delkey k' :: es, db, k => by
    have hd : delKeysOf (Ev.delkey k' :: es) = k' :: delKeysOf es := by
      simp [delKeysOf]
    rw [hd,
      show applyEvents db (Ev.delkey k' :: es)
        = applyEvents (applyEv db (.delkey k')) es from rfl,
      applyEvents_current_sget es _ k]
    by_cases h : k = k'
    · subst h
      simp [applyEv, sget_sdel_self]
    · by_cases hm : k ∈ delKeysOf es <;>
        simp [applyEv, hm, h, sget_sdel_ne db.current k' k h]

theorem valueSize_cons (kv : Bytes × Bytes) (l : List (Bytes × Bytes)) :
    valueSize (kv :: l) = kv.1.length + kv.2.length + valueSize l := by
  have haux : ∀ (l : List (Bytes × Bytes)) (n : Nat),
      l.foldl (fun s kv => s + kv.1.length + kv.2.length) n = n + valueSize l := by
    intro l
    induction l with
    | nil => intro n; simp [valueSize]
    | cons kv' l ih =>
      intro n
      simp only [valueSize, List.foldl_cons] at ih ⊢
      rw [ih, ih (0 + kv'.1.length + kv'.2.length)]
      omega
  conv_lhs => rw [show valueSize (kv :: l)
    = l.foldl (fun s kv => s + kv.1.length + kv.2.length)
        (0 + kv.1.length + kv.2.length) from rfl]
  rw [haux]
  omega

theorem valueSize_pos : ∀ (l : List (Bytes × Bytes)) (kv : Bytes × Bytes),
    kv ∈ l → kv.1 ≠ [] → 0 < valueSize l
  | [], kv, hm, _ => by cases hm
  | kv₀ :: l, kv, hm, hne => by
    rw [valueSize_cons]
    rcases List.mem_cons.mp hm with heq | hm'
    · subst heq
      have : 0 < kv.1.length := List.length_pos.mpr hne
      omega
    · have := valueSize_pos l kv hm' hne
      omega

/-- Every pair with a non-empty key is eventually deleted by the trace. -/
theorem delKeys_cover : ∀ (rest pending : List (Bytes × Bytes)) (n : Nat),
    (∀ kv ∈ pending ++ rest, kv.1 ≠ ([] : Bytes)) →
    ∀ kv ∈ pending ++ rest, kv.1 ∈ delKeysOf (archiveGo rest pending n)
  | [], pending, n, hne, kv, hm => by
    rw [List.append_nil] at hne hm
    have hpos : 0 < valueSize pending := valueSize_pos pending kv hm (hne kv (by simpa using hm))
    simp only [archiveGo, if_pos hpos, delKeysOf_chunk]
    exact List.mem_map_of_mem Prod.fst hm
  | kv₀ :: rest', pending, n, hne, kv, hm => by
    have hsplit : pending ++ kv₀ :: rest' = (pending ++ [kv₀]) ++ rest' := by
      rw [List.append_assoc]; rfl
    rw [hsplit] at hne hm
    by_cases hmod : (n + 1) % 100 = 0
    · have hgo : archiveGo (kv₀ :: rest') pending n
          = chunkEvents (pending ++ [kv₀]) ++ archiveGo rest' [] (n + 1) := by
        simp [archiveGo, hmod]
      rw [hgo, delKeysOf_append, delKeysOf_chunk]
      rcases List.mem_append.mp hm with hm' | hm'
      · exact List.mem_append.mpr (Or.inl (List.mem_map_of_mem Prod.fst hm'))
      · refine List.mem_append.mpr (Or.inr ?_)
        exact delKeys_cover rest' [] (n + 1)
          (fun kv' hm'' => hne kv' (List.mem_append.mpr (Or.inr (by simpa using hm''))))
          kv (by simpa using hm')
    · have hgo : archiveGo (kv₀ :: rest') pending n
          = archiveGo rest' (pending ++ [kv₀]) (n + 1) := by
        simp [archiveGo, hmod]
      rw [hgo]
      exact delKeys_cover rest' (pending ++ [kv₀]) (n + 1) hne kv hm

theorem sdel_sublist : ∀ (s : Store) (k : Bytes), List.Sublist (sdel s k) s
  | [], _ => List.Sublist.refl _
  | (k₀, v₀) :: rest, k => by
    by_cases h : k₀ = k
    · rw [show sdel ((k₀, v₀) :: rest) k = sdel rest k by simp [sdel, h]]
      exact (sdel_sublist rest k).cons _
    · rw [show sdel ((k₀, v₀) :: rest) k = (k₀, v₀) :: sdel rest k by simp [sdel, h]]
      exact (sdel_sublist rest k).cons₂ _

theorem applyEvents_current_sublist : ∀ (es : List Ev) (db : DualState),
    List.Sublist (applyEvents db es).current db.current
  | [], _db => List.Sublist.refl _
  | .commit ps :: es, db =>
    applyEvents_current_sublist es (applyEv db (.commit ps))
  | .delkey k :: es, db =>
    (applyEvents_current_sublist es (applyEv db (.delkey k))).trans
      (sdel_sublist db.current k)

/-- One full cycle over the whole current snapshot empties current
(non-empty keys are deleted chunk by chunk, and nothing survives). -/
theorem applyEvents_archive_current_nil (db : DualState)
    (hne : ∀ kv ∈ db.current, kv.1 ≠ ([] : Bytes)) :
    (applyEvents db (archiveEvents db.current)).current = [] := by
  cases hcur : (applyEvents db (archiveEvents db.current)).current with
  | nil => rfl
  | cons kv tl =>
    exfalso
    have hmem : kv ∈ db.current := by
      have hs := applyEvents_current_sublist (archiveEvents db.current) db
      rw [hcur] at hs
      exact hs.subset (List.mem_cons_self _ _)
    have hdel : kv.1 ∈ delKeysOf (archiveEvents db.current) :=
      delKeys_cover db.current [] 0 (by simpa using hne) kv (by simpa using hmem)
    have h1 : sget (applyEvents db (archiveEvents db.current)).current kv.1 = none := by
      rw [applyEvents_current_sget, if_pos hdel]
    rw [hcur] at h1
    obtain ⟨k₁, v₁⟩ := kv
    simp [sget] at h1

/-- The source's `shouldArchive` keeps every key, so the eligibility
filter keeps the whole snapshot. -/
theorem filter_shouldArchive (l : List (Bytes × Bytes)) (fh : Nat) :
    l.filter (fun kv => shouldArchive kv.1 fh) = l :=
  List.filter_eq_self.mpr (fun _ _ => rfl)

theorem archiveFinalized_no_archive (a : ArchiverState)
    (h : a.db.archive = none) : archiveFinalized a = (a, .ok ()) := by
  unfold archiveFinalized
  rw [h]

theorem archiveFinalized_idle (a : ArchiverState) (arc : Store) (h : Nat)
    (harc : a.db.archive = some arc) (hh : getCurrentHeight a.db = .ok h)
    (hzero : h = 0 ∨ h ≤ a.finalityDelay) :
    archiveFinalized a = (a, .ok ()) := by
  unfold archiveFinalized
  rw [harc, hh]
  rcases hzero with h0 | hle
  · simp [h0]
  · by_cases h0 : h = 0 <;> simp [h0, hle]

theorem archiveFinalized_height_error (a : ArchiverState) (arc : Store)
    (e : String) (harc : a.db.archive = some arc)
    (hh : getCurrentHeight a.db = .error e) :
    archiveFinalized a = (a, .error ("failed to get current height: " ++ e)) := by
  unfold archiveFinalized
  rw [harc, hh]

theorem archiveFinalized_active (a : ArchiverState) (arc : Store) (h : Nat)
    (harc : a.db.archive = some arc) (hh : getCurrentHeight a.db = .ok h)
    (h0 : h ≠ 0) (hd : ¬ h ≤ a.finalityDelay) :
    archiveFinalized a =
      ({ db := { applyEvents a.db (archiveEvents a.db.current) with
            finalityHeight := h - a.finalityDelay },
         finalityDelay := a.finalityDelay,
         totalArchived := a.totalArchived + a.db.current.length,
         totalDeleted := a.totalDeleted
            + (delKeysOf (archiveEvents a.db.current)).length },
       .ok ()) := by
  unfold archiveFinalized
  rw [harc, hh]
  simp only [h0, hd, if_false, filter_shouldArchive]

/-- `dualGet` ignores the `finalityHeight` field. -/
theorem dualGet_set_finality (db : DualState) (x : Nat) (k : Bytes) :
    dualGet { db with finalityHeight := x } k = dualGet db k := rfl

/-- A present key is found by `sget`. -/
theorem sget_isSome_of_mem_keys : ∀ (s : Store) (k : Bytes),
    k ∈ keysOf s → ∃ v, sget s k = some v
  | [], k, h => by simp [keysOf] at h
  | (k₀, v₀) :: rest, k, h => by
    by_cases h0 : k₀ = k
    · exact ⟨v₀, by simp [sget, h0]⟩
    · have h' : k ∈ keysOf rest := by
        rcases by simpa [keysOf] using h with h1 | h1
        · exact absurd h1.symm h0
        · simpa [keysOf] using h1
      obtain ⟨v, hv⟩ := sget_isSome_of_mem_keys rest k h'
      exact ⟨v, by simp [sget, h0, hv]⟩

theorem not_mem_keys_of_sget_none {s : Store} {k : Bytes}
    (h : sget s k = none) : k ∉ keysOf s := by
  intro hmem
  obtain ⟨v, hv⟩ := sget_isSome_of_mem_keys s k hmem
  rw [h] at hv
  cases hv

/-- After an active cycle the marker key is still readable with its old
value, so the recomputed height is unchanged. -/
theorem dualGet_after_cycle (db : DualState) (k data : Bytes)
    (hsome : db.archive.isSome = true) (hnd : nodupKeys db.current)
    (hget : dualGet db k = .ok data) :
    dualGet (applyEvents db (archiveEvents db.current)) k = .ok data := by
  cases hc : sget db.current k with
  | some d =>
    have hd : d = data := by
      rw [dualGet_char, hc] at hget
      exact (Except.ok.inj hget)
    subst hd
    have hmem : (k, d) ∈ db.current := mem_of_sget_eq_some _ _ _ hc
    exact archiveGo_readable db.current [] 0 db k d hsome
      (by simpa using hnd)
      (by intro kv hm
          exact sget_eq_some_of_mem _ _ _ hnd (by simpa using hm))
      (Or.inl (by simpa using hmem))
      (archiveEvents db.current) (List.prefix_refl _)
  | none =>
    have hnk : k ∉ keysOf db.current := not_mem_keys_of_sget_none hc
    have hpres := applyEvents_untouched (l := db.current)
      (archiveEvents db.current) db k hnk
      (fun e he => by
        have := archiveGo_touches db.current [] 0 e he
        simpa using this)
    rw [dualGet_char, hpres.1, hc, hpres.2]
    rw [dualGet_char, hc] at hget
    exact hget

theorem getCurrentHeight_ok_inv (db : DualState) (h : Nat)
    (hh : getCurrentHeight db = .ok h) (h0 : h ≠ 0) :
    ∃ data, dualGet db lastBlockKey = .ok data ∧ data.length = 8 ∧
      beFold data = h := by
  unfold getCurrentHeight at hh
  cases hg : dualGet db lastBlockKey with
  | error e =>
    rw [hg] at hh
    have hh' : (Except.ok 0 : Except String Nat) = Except.ok h := hh
    exact absurd (Except.ok.inj hh').symm h0
  | ok data =>
    rw [hg] at hh
    have hh' : (if data.length ≠ 8 then (Except.error "invalid height data" : Except String Nat)
        else Except.ok (beFold data)) = Except.ok h := hh
    by_cases hlen : data.length ≠ 8
    · rw [if_pos hlen] at hh'; cases hh'
    · rw [if_neg hlen] at hh'
      exact ⟨data, rfl, by omega, Except.ok.inj hh'⟩

theorem getCurrentHeight_after_cycle (db : DualState) (h x : Nat)
    (hsome : db.archive.isSome = true) (hnd : nodupKeys db.current)
    (hh : getCurrentHeight db = .ok h) (h0 : h ≠ 0) :
    getCurrentHeight
      { applyEvents db (archiveEvents db.current) with finalityHeight := x }
      = .ok h := by
  obtain ⟨data, hg, hlen, hfold⟩ := getCurrentHeight_ok_inv db h hh h0
  unfold getCurrentHeight
  rw [dualGet_set_finality, dualGet_after_cycle db lastBlockKey data hsome hnd hg]
  simp [hlen, hfold]

theorem archiveEvents_nil : archiveEvents [] = [] := rfl

/-- A cycle that finds an empty current store changes no counters and no
current content. -/
theorem archiveFinalized_second_noop (a1 : ArchiverState) (h : Nat)
    (arc' : Store) (harc : a1.db.archive = some arc')
    (hh : getCurrentHeight a1.db = .ok h) (h0 : h ≠ 0)
    (hd : ¬ h ≤ a1.finalityDelay) (hcur : a1.db.current = []) :
    (archiveFinalized a1).1.totalArchived = a1.totalArchived ∧
      (archiveFinalized a1).1.totalDeleted = a1.totalDeleted ∧
      (archiveFinalized a1).1.db.current = a1.db.current := by
  rw [archiveFinalized_active a1 arc' h harc hh h0 hd]
  rw [hcur, archiveEvents_nil]
  exact ⟨by simp, by simp [delKeysOf], by simp [applyEvents, hcur]⟩

-- GenesisReplayer -----------------------------------------------------------

/-- The persisted checkpoint key `"LastReplayedHeight"`. -/
def lastReplayedKey : Bytes :=
  [76, 97, 115, 116, 82, 101, 112, 108, 97, 121, 101, 100, 72, 101, 105, 103,
   104, 116]

/-- The canonical-hash key prefix `"h"`. -/
def hKeyByte : Bytes := [104]

/-- The checkpoint read in `checkReplayStatus`: absent means `0`; a value
of at least eight bytes decodes big-endian (shorter values leave `0`). -/
def lastReplayedOf (dst : Store) : Nat :=
  match sget dst lastReplayedKey with
  | none => 0
  | some val => if 8 ≤ val.length then decodeUint64 val else 0

/-- `getTargetTip`: reverse iteration over the `"h"` prefix picks the
lexicographically greatest such key; a key of at least nine bytes decodes
its bytes `[1:9]` as the tip, anything else leaves `0`. -/
def maxKeyH (dst : Store) : Option Bytes :=
  ((keysOf dst).filter (fun k => isPrefixB hKeyByte k)).foldl
    (fun acc k =>
      match acc with
      | none => some k
      | some m => if lexLt m k then some k else some m) none

/-- The destination tip computed by `getTargetTip`. -/
def targetTipOf (dst : Store) : Nat :=
  match maxKeyH dst with
  | none => 0
  | some key => if 9 ≤ key.length then decodeUint64 (key.drop 1) else 0

/-- `GenesisReplayer.checkReplayStatus`: returns the start height and the
destination tip.  The start height is `targetTip + 1` when the checkpoint
exceeds the destination tip, else `checkpoint + 1`. -/
def checkReplayStatus (dst : Store) : Nat × Nat :=
  let lastReplayed := lastReplayedOf dst
  let targetTip := targetTipOf dst
  (if targetTip < lastReplayed then targetTip + 1 else lastReplayed + 1,
   targetTip)

/-- The height-processing plan of `GenesisReplayer.Replay`: when the
destination tip has reached the source tip the batch loop is skipped and
the run goes straight to tip verification (`true`); otherwise the loop
considers exactly the heights `startHeight..sourceTip` in batches. -/
def replayPlan (dst : Store) (sourceTip : Nat) : List Nat × Bool :=
  let status := checkReplayStatus dst
  if sourceTip ≤ status.2 then ([], true)
  else (List.range' status.1 (sourceTip + 1 - status.1), false)

-- badgerIterator -------------------------------------------------------------

/-- The seek key computed by `badgerIterator.init`: `start` itself when a
non-empty `start` already carries the prefix, `prefix ++ start` when a
non-empty `start` lacks it, and the prefix otherwise. -/
def seekKeyOf (pfx start : Bytes) : Bytes :=
  if 0 < start.length then
    (if isPrefixB pfx start then start else pfx ++ start)
  else pfx

/-- The key sequence yielded by `BadgerDatabase.NewIterator(prefix,
start)`: the store's keys in their (ascending) iteration order, restricted
by the badger `Prefix` option to keys carrying the prefix, starting from
the first key not below the seek key. -/
def iterKeys (db : Store) (pfx start : Bytes) : List Bytes :=
  (keysOf db).filter (fun k => isPrefixB pfx k && lexLe (seekKeyOf pfx start) k)

/-- Modelled from the spec's words, for comparison with `iterKeys`
(refinement): "seeking begins at `start` if provided, else at `prefix`" —
the seek position is literally `start` whenever a non-empty `start` is
given. -/
def claimIterKeys (db : Store) (pfx start : Bytes) : List Bytes :=
  (keysOf db).filter
    (fun k => isPrefixB pfx k &&
      lexLe (if 0 < start.length then start else pfx) k)

-- Claim theorems ------------------------------------------------------------

/-- C2: `DualBadgerDatabase.Get` checks current first; a key present in
current yields the current value; a key absent from current but present
in a present archive yields the archive value; a key in neither tier
(archive present or absent) yields the distinguished NotFound error. -/
theorem claim2_tiered_get (db : DualState) (a : Store) (k v : Bytes) :
    (sget db.current k = some v → dualGet db k = .ok v) ∧
    (sget db.current k = none → db.archive = some a → sget a k = some v →
      dualGet db k = .ok v) ∧
    (sget db.current k = none → db.archive = some a → sget a k = none →
      dualGet db k = .error .keyNotFound) ∧
    (sget db.current k = none → db.archive = none →
      dualGet db k = .error .keyNotFound) := by
  refine ⟨?_, ?_, ?_, ?_⟩
  · intro hc
    rw [dualGet_char, hc]
  · intro hc ha hg
    rw [dualGet_char, hc]
    simp [archGet, ha, hg]
  · intro hc ha hg
    rw [dualGet_char, hc]
    simp [archGet, ha, hg]
  · intro hc ha
    rw [dualGet_char, hc]
    simp [archGet, ha]

/-- Witness for C2 at a concrete dual store: key `[1]` lives in both tiers
with different values and current wins; key `[2]` lives only in the
archive; key `[3]` lives in neither tier. -/
theorem claim2_tiered_get_witness :
    dualGet ⟨some [([1], [10]), ([2], [20])], [([1], [11])], 0⟩ [1] = .ok [11] ∧
      dualGet ⟨some [([1], [10]), ([2], [20])], [([1], [11])], 0⟩ [2] = .ok [20] ∧
      dualGet ⟨some [([1], [10]), ([2], [20])], [([1], [11])], 0⟩ [3]
        = .error .keyNotFound :=
  ⟨(claim2_tiered_get ⟨some [([1], [10]), ([2], [20])], [([1], [11])], 0⟩
      [([1], [10]), ([2], [20])] [1] [11]).1 (by decide),
   (claim2_tiered_get ⟨some [([1], [10]), ([2], [20])], [([1], [11])], 0⟩
      [([1], [10]), ([2], [20])] [2] [20]).2.1 (by decide) rfl (by decide),
   (claim2_tiered_get ⟨some [([1], [10]), ([2], [20])], [([1], [11])], 0⟩
      [([1], [10]), ([2], [20])] [3] [0]).2.2.1 (by decide) rfl (by decide)⟩

/-- C10: a `badgerBatch` buffers at most one operation per key (the Go map
replaces the binding) and the last `Put`/`Delete` wins: `Put(k,v)` then
`Delete(k)` leaves `k` absent after `Write()`; `Delete(k)` then `Put(k,v)`
makes `Get(k)` return `v` after `Write()`. -/
theorem claim10_batch_last_wins (b : Batch) (st : Store) (k v : Bytes)
    (hnd : batchNodup b) :
    sget (batchWrite (batchDelete (batchPut b k v) k) st) k = none ∧
    sget (batchWrite (batchPut (batchDelete b k) k v) st) k = some v ∧
    batchNodup (batchPut b k v) ∧ batchNodup (batchDelete b k) := by
  have hnd1 : batchNodup (batchPut b k v) := batchNodup_mapInsert b k _ hnd
  have hnd2 : batchNodup (batchDelete b k) := batchNodup_mapInsert b k _ hnd
  have hnd12 : batchNodup (batchDelete (batchPut b k v) k) :=
    batchNodup_mapInsert _ k _ hnd1
  have hnd21 : batchNodup (batchPut (batchDelete b k) k v) :=
    batchNodup_mapInsert _ k _ hnd2
  refine ⟨?_, ?_, hnd1, hnd2⟩
  · rw [batchWrite_sget _ st k hnd12]
    rw [show batchFind (batchDelete (batchPut b k v) k) k = some ⟨[], true⟩ from
      batchFind_mapInsert_self _ k _]
    rfl
  · rw [batchWrite_sget _ st k hnd21]
    rw [show batchFind (batchPut (batchDelete b k) k v) k = some ⟨v, false⟩ from
      batchFind_mapInsert_self _ k _]
    rfl

/-- Witness for C10 at a concrete batch and store. -/
theorem claim10_batch_last_wins_witness :
    sget (batchWrite (batchDelete (batchPut [([9], ⟨[1], false⟩)] [4] [5]) [4])
        [([4], [0])]) [4] = none ∧
      sget (batchWrite (batchPut (batchDelete [([9], ⟨[1], false⟩)] [4]) [4] [5])
        [([4], [0])]) [4] = some [5] :=
  ⟨(claim10_batch_last_wins [([9], ⟨[1], false⟩)] [([4], [0])] [4] [5]
      (by decide)).1,
   (claim10_batch_last_wins [([9], ⟨[1], false⟩)] [([4], [0])] [4] [5]
      (by decide)).2.1⟩

/-- C3 counterexample: with `maxBytes = 0` the size limit is disabled
(`maxBytes > 0 &&` guard), so the range does NOT stop once appending the
next item would exceed `maxBytes`: two one-byte items are returned even
though any non-empty result already exceeds zero bytes. -/
theorem claim3_counterexample :
    (ancientRange [(makeAncientKey [97] 0, [7]), (makeAncientKey [97] 1, [7])]
        [97] 0 2 0).length = 2 ∧
      0 < sumBytes (ancientRange
        [(makeAncientKey [97] 0, [7]), (makeAncientKey [97] 1, [7])]
        [97] 0 2 0) := by
  decide

/-- C3 (amended): whenever the item at index `start` is present (which the
contiguity invariant guarantees for `tail ≤ start < ancients`) and
`count ≥ 1`, `AncientRange` returns at least one item for every
`maxBytes`, even when the first item alone exceeds `maxBytes`; and when
`maxBytes > 0` it stops early so that a result of two or more items never
exceeds `maxBytes` in total.  `maxBytes = 0` disables the size limit. -/
theorem claim3_ancient_range_amended (db : Store) (kind : Bytes)
    (start count maxBytes : Nat) (d : Bytes) (hc : 1 ≤ count)
    (hd : sget db (makeAncientKey kind start) = some d) :
    1 ≤ (ancientRange db kind start count maxBytes).length ∧
      (0 < maxBytes → (ancientRange db kind start count maxBytes).length ≤ 1 ∨
        sumBytes (ancientRange db kind start count maxBytes) ≤ maxBytes) := by
  obtain ⟨c, rfl⟩ : ∃ c, count = c + 1 := ⟨count - 1, by omega⟩
  have hstep : ancientRangeGo db kind maxBytes (c + 1) start 0 []
      = if 0 < maxBytes ∧ maxBytes < 0 + d.length then [d]
        else ancientRangeGo db kind maxBytes c (start + 1) (0 + d.length) [d] := by
    simp [ancientRangeGo, hd]
  unfold ancientRange
  rw [hstep]
  constructor
  · by_cases hlim : 0 < maxBytes ∧ maxBytes < 0 + d.length
    · rw [if_pos hlim]; rfl
    · rw [if_neg hlim]
      calc 1 = ([d] : List Bytes).length := rfl
        _ ≤ _ := ancientRangeGo_length_mono db kind maxBytes c (start + 1)
              (0 + d.length) [d]
  · intro hpos
    by_cases hlim : 0 < maxBytes ∧ maxBytes < 0 + d.length
    · rw [if_pos hlim]
      exact Or.inl (by rfl)
    · rw [if_neg hlim]
      have hfit : d.length ≤ maxBytes := by
        rcases Nat.lt_or_ge maxBytes (0 + d.length) with hlt | hge
        · exact absurd ⟨hpos, hlt⟩ hlim
        · omega
      exact ancientRangeGo_size_bound db kind maxBytes hpos c (start + 1)
        (0 + d.length) [d] (by simp [sumBytes]) (by simpa [sumBytes] using hfit)

/-- Witness for C3 (amended): a single ten-byte item at index 0 with
`maxBytes = 3` — the item is returned despite exceeding the limit. -/
theorem claim3_ancient_range_amended_witness :
    1 ≤ (ancientRange [(makeAncientKey [97] 0, [7, 7, 7, 7, 7])] [97] 0 1 3).length ∧
      (0 < 3 → (ancientRange [(makeAncientKey [97] 0, [7, 7, 7, 7, 7])]
          [97] 0 1 3).length ≤ 1 ∨
        sumBytes (ancientRange [(makeAncientKey [97] 0, [7, 7, 7, 7, 7])]
          [97] 0 1 3) ≤ 3) :=
  claim3_ancient_range_amended [(makeAncientKey [97] 0, [7, 7, 7, 7, 7])]
    [97] 0 1 3 [7, 7, 7, 7, 7] (by decide) (by decide)

/-- C4: evaluation at the failing input.  With `ancients = 10` and
`tail = 5`, `TruncateHead(3)` succeeds (it can only surface backend I/O
errors), deletes the items and stores `ancients = 3`, leaving
`tail = 5 > ancients = 3` — the claimed invariant check does not exist in
`TruncateHead`/`TruncateAncients`.  `TruncateTail` does enforce it:
`TruncateTail(6)` on the same state errors out. -/
theorem claim4_truncate_head_unchecked :
    (truncateHead ⟨[], 10, 5⟩ 3).1 = 10 ∧
      (truncateHead ⟨[], 10, 5⟩ 3).2.ancients = 3 ∧
      (truncateHead ⟨[], 10, 5⟩ 3).2.tail = 5 ∧
      (truncateHead ⟨[], 10, 5⟩ 3).2.ancients < (truncateHead ⟨[], 10, 5⟩ 3).2.tail ∧
      truncateTail ⟨[], 10, 5⟩ 6 = .error "truncate tail beyond ancients" :=
  ⟨rfl, by decide, by decide, by decide, rfl⟩

/-- C9 counterexample: with prefix `[2]` and start `[3]` (a start that
does not carry the prefix) the iterator seeks at `prefix ++ start =
[2,3]`, not at `start`, and yields the key `[2,4]`, which precedes the
claimed seek position `[3]`; seeking at `start` as the claim states would
yield nothing here. -/
theorem claim9_counterexample :
    iterKeys [([2, 4], [1])] [2] [3] = [[2, 4]] ∧
      claimIterKeys [([2, 4], [1])] [2] [3] = [] ∧
      lexLt [2, 4] [3] = true := by
  decide

/-- C9 (amended): over a store iterated in ascending byte order, the
iterator yields keys in ascending order, yields no key lacking the
prefix, and yields exactly the prefixed keys not below the seek key,
where seeking begins at `start` only when the non-empty `start` itself
carries the prefix, at `prefix ++ start` when it does not, and at
`prefix` when `start` is empty. -/
theorem claim9_iterator_amended (db : Store) (pfx start : Bytes)
    (hsorted : List.Pairwise (fun a b => lexLt a b = true) (keysOf db)) :
    List.Pairwise (fun a b => lexLt a b = true) (iterKeys db pfx start) ∧
      (∀ k ∈ iterKeys db pfx start,
        isPrefixB pfx k = true ∧ lexLe (seekKeyOf pfx start) k = true) ∧
      (∀ k ∈ keysOf db, isPrefixB pfx k = true →
        lexLe (seekKeyOf pfx start) k = true → k ∈ iterKeys db pfx start) := by
  refine ⟨?_, ?_, ?_⟩
  · exact List.Pairwise.sublist (List.filter_sublist _) hsorted
  · intro k hk
    have := List.mem_filter.mp hk
    exact ⟨(Bool.and_eq_true _ _).mp this.2 |>.1,
      (Bool.and_eq_true _ _).mp this.2 |>.2⟩
  · intro k hk h1 h2
    exact List.mem_filter.mpr ⟨hk, by rw [h1, h2]; rfl⟩

/-- Witness for C9 (amended) on a concrete sorted store. -/
theorem claim9_iterator_amended_witness :
    List.Pairwise (fun a b => lexLt a b = true)
        (iterKeys [([2, 3], [0]), ([2, 4], [1]), ([5], [2])] [2] []) ∧
      (∀ k ∈ iterKeys [([2, 3], [0]), ([2, 4], [1]), ([5], [2])] [2] [],
        isPrefixB [2] k = true ∧ lexLe (seekKeyOf [2] []) k = true) ∧
      (∀ k ∈ keysOf [([2, 3], [0]), ([2, 4], [1]), ([5], [2])],
        isPrefixB [2] k = true → lexLe (seekKeyOf [2] []) k = true →
          k ∈ iterKeys [([2, 3], [0]), ([2, 4], [1]), ([5], [2])] [2] []) :=
  claim9_iterator_amended [([2, 3], [0]), ([2, 4], [1]), ([5], [2])] [2] []
    (by decide)

/-- C6 counterexample: a destination whose persisted checkpoint is `5`
but whose scanned tip is `2` (source tip `10`) makes `Replay` start at
height `3 = targetTip + 1`, re-processing heights `3..5` that are not
strictly greater than the committed checkpoint. -/
theorem claim6_counterexample :
    lastReplayedOf [(lastReplayedKey, encodeUint64 5),
        (hKeyByte ++ encodeUint64 2, [170])] = 5 ∧
      (replayPlan [(lastReplayedKey, encodeUint64 5),
        (hKeyByte ++ encodeUint64 2, [170])] 10).1.head? = some 3 ∧
      3 ∈ (replayPlan [(lastReplayedKey, encodeUint64 5),
        (hKeyByte ++ encodeUint64 2, [170])] 10).1 ∧
      3 ≤ lastReplayedOf [(lastReplayedKey, encodeUint64 5),
        (hKeyByte ++ encodeUint64 2, [170])] := by
  decide

/-- C6 (amended): a re-invoked `Replay` processes only heights strictly
greater than the minimum of the committed checkpoint and the scanned
destination tip (so strictly greater than the checkpoint whenever the
checkpoint is at most the destination tip); with no checkpoint it starts
at height 1; and when the destination tip has reached the source tip it
copies nothing and goes straight to tip verification. -/
theorem claim6_replay_resume_amended (dst : Store) (sourceTip : Nat) :
    (sourceTip ≤ targetTipOf dst → replayPlan dst sourceTip = ([], true)) ∧
      (∀ h ∈ (replayPlan dst sourceTip).1,
        min (lastReplayedOf dst) (targetTipOf dst) < h ∧ h ≤ sourceTip) ∧
      (sget dst lastReplayedKey = none → targetTipOf dst < sourceTip →
        (replayPlan dst sourceTip).1 = List.range' 1 sourceTip) := by
  refine ⟨?_, ?_, ?_⟩
  · intro hle
    simp [replayPlan, checkReplayStatus, hle]
  · intro h hm
    unfold replayPlan checkReplayStatus at hm
    by_cases hle : sourceTip ≤ targetTipOf dst
    · simp [hle] at hm
    · rw [if_neg hle] at hm
      simp only [List.mem_range'] at hm
      obtain ⟨i, hlt, heq⟩ := hm
      constructor
      · by_cases hcmp : targetTipOf dst < lastReplayedOf dst
        · rw [if_pos hcmp] at hlt heq; omega
        · rw [if_neg hcmp] at hlt heq; omega
      · by_cases hcmp : targetTipOf dst < lastReplayedOf dst
        · rw [if_pos hcmp] at hlt heq; omega
        · rw [if_neg hcmp] at hlt heq; omega
  · intro habs hlt
    have hzero : lastReplayedOf dst = 0 := by
      unfold lastReplayedOf
      rw [habs]
    unfold replayPlan checkReplayStatus
    rw [hzero]
    have : ¬ sourceTip ≤ targetTipOf dst := by omega
    simp only [this, if_false]
    have hif : ¬ targetTipOf dst < 0 := by omega
    rw [if_neg hif]
    simp

/-- Witness for C6 (amended): an empty destination and source tip `4` —
no checkpoint, tip `0 < 4`, so the plan is exactly heights `1..4`. -/
theorem claim6_replay_resume_amended_witness :
    (4 ≤ targetTipOf [] → replayPlan [] 4 = ([], true)) ∧
      (∀ h ∈ (replayPlan [] 4).1,
        min (lastReplayedOf []) (targetTipOf []) < h ∧ h ≤ 4) ∧
      (sget [] lastReplayedKey = none → targetTipOf [] < 4 →
        (replayPlan [] 4).1 = List.range' 1 4) :=
  claim6_replay_resume_amended [] 4

/-- C1: in an archiving cycle, after every prefix of the migration's
externally visible event trace (batch commits and per-key deletes), every
key selected for migration is still readable with its original value
through the tiered `Get` — the archive commit that contains a key always
precedes that key's delete, so no prefix (crash point) loses the key. -/
theorem claim1_commit_before_delete (a : ArchiverState) (fh : Nat)
    (k v : Bytes) (p : List Ev) (hsome : a.db.archive.isSome = true)
    (hnd : nodupKeys a.db.current)
    (hmem : (k, v) ∈ a.db.current.filter (fun kv => shouldArchive kv.1 fh))
    (hp : p <+: archiveEvents
      (a.db.current.filter (fun kv => shouldArchive kv.1 fh))) :
    dualGet (applyEvents a.db p) k = .ok v := by
  rw [filter_shouldArchive] at hmem hp
  exact archiveGo_readable a.db.current [] 0 a.db k v hsome
    (by simpa using hnd)
    (fun kv hm => sget_eq_some_of_mem _ _ _ hnd (by simpa using hm))
    (Or.inl (by simpa using hmem)) p hp

/-- Witness for C1: a one-pair current store, evaluated at the full event
trace of its migration. -/
theorem claim1_commit_before_delete_witness :
    dualGet (applyEvents (⟨⟨some [], [([1], [2])], 0⟩, 5, 0, 0⟩ :
        ArchiverState).db
      (archiveEvents ((⟨⟨some [], [([1], [2])], 0⟩, 5, 0, 0⟩ :
        ArchiverState).db.current.filter (fun kv => shouldArchive kv.1 5))))
      [1] = .ok [2] :=
  claim1_commit_before_delete ⟨⟨some [], [([1], [2])], 0⟩, 5, 0, 0⟩ 5 [1] [2]
    _ rfl (by decide) (by decide) (List.prefix_refl _)

/-- The `"chain-head-height"` marker key named by the spec, as bytes. -/
def chainHeadHeightKey : Bytes :=
  [99, 104, 97, 105, 110, 45, 104, 101, 97, 100, 45, 104, 101, 105, 103, 104,
   116]

/-- C8 counterexample: a current store carrying a well-formed big-endian
height `100` under the spec's key `"chain-head-height"` (and a data key).
The claim predicts height 100 > finalityDelay 5 and an archiving pass;
the code reads the `"LastBlock"` key instead, finds nothing, reports
height 0 and does nothing at all. -/
theorem claim8_counterexample :
    beFold (encodeUint64 100) = 100 ∧
      sget [(chainHeadHeightKey, encodeUint64 100), ([98], [1])]
        chainHeadHeightKey = some (encodeUint64 100) ∧
      getCurrentHeight
        ⟨some [], [(chainHeadHeightKey, encodeUint64 100), ([98], [1])], 0⟩
        = .ok 0 ∧
      archiveFinalized
        ⟨⟨some [], [(chainHeadHeightKey, encodeUint64 100), ([98], [1])], 0⟩,
          5, 0, 0⟩
        = (⟨⟨some [], [(chainHeadHeightKey, encodeUint64 100), ([98], [1])], 0⟩,
          5, 0, 0⟩, .ok ()) := by
  refine ⟨by decide, by decide, by decide, ?_⟩
  exact archiveFinalized_idle _ [] 0 rfl (by decide) (Or.inl rfl)

/-- C8 (amended): the height marker key is `"LastBlock"`, read through
the tiered `Get` (current first, then archive) and decoded as eight
big-endian bytes; an absent marker means height 0 and the cycle is a
no-op without error, as is a height at most `finalityDelay`; a marker
value whose length is not eight is an error. -/
theorem claim8_marker_amended (a : ArchiverState) (arc : Store) (h : Nat)
    (data : Bytes) :
    (dualGet a.db lastBlockKey = .ok data → data.length = 8 →
      getCurrentHeight a.db = .ok (beFold data)) ∧
    (dualGet a.db lastBlockKey = .error .keyNotFound →
      getCurrentHeight a.db = .ok 0) ∧
    (a.db.archive = some arc → dualGet a.db lastBlockKey = .error .keyNotFound →
      archiveFinalized a = (a, .ok ())) ∧
    (a.db.archive = some arc → getCurrentHeight a.db = .ok h →
      h ≤ a.finalityDelay → archiveFinalized a = (a, .ok ())) ∧
    (dualGet a.db lastBlockKey = .ok data → data.length ≠ 8 →
      getCurrentHeight a.db = .error "invalid height data") := by
  refine ⟨?_, ?_, ?_, ?_, ?_⟩
  · intro hg hlen
    unfold getCurrentHeight
    rw [hg]
    simp [hlen]
  · intro hg
    unfold getCurrentHeight
    rw [hg]
  · intro harc hg
    have h0 : getCurrentHeight a.db = .ok 0 := by
      unfold getCurrentHeight
      rw [hg]
    exact archiveFinalized_idle a arc 0 harc h0 (Or.inl rfl)
  · intro harc hh hle
    exact archiveFinalized_idle a arc h harc hh (Or.inr hle)
  · intro hg hlen
    unfold getCurrentHeight
    rw [hg]
    simp [hlen]

/-- Witness for C8 (amended): marker `"LastBlock" ↦ bigEndian(3)` with
`finalityDelay = 5` decodes to height 3 and the cycle is a no-op. -/
theorem claim8_marker_amended_witness :
    getCurrentHeight ⟨some [], [(lastBlockKey, encodeUint64 3)], 0⟩
        = .ok (beFold (encodeUint64 3)) ∧
      archiveFinalized
        (⟨⟨some [], [(lastBlockKey, encodeUint64 3)], 0⟩, 5, 0, 0⟩ :
          ArchiverState)
        = (⟨⟨some [], [(lastBlockKey, encodeUint64 3)], 0⟩, 5, 0, 0⟩, .ok ()) :=
  ⟨(claim8_marker_amended ⟨⟨some [], [(lastBlockKey, encodeUint64 3)], 0⟩,
      5, 0, 0⟩ [] 3 (encodeUint64 3)).1 (by decide) (by decide),
   (claim8_marker_amended ⟨⟨some [], [(lastBlockKey, encodeUint64 3)], 0⟩,
      5, 0, 0⟩ [] 3 (encodeUint64 3)).2.2.2.1 rfl (by decide) (by decide)⟩

/-- A height-indexed block key for the C7 scenario: `"b" ++ bigEndian(h)`. -/
def numKey (h : Nat) : Bytes := 98 :: encodeUint64 h

/-- The C7 scenario: empty archive, current store holding the
`"LastBlock" ↦ bigEndian(19)` marker and the keys for heights `0..19`,
`finalityDelay = 5`. -/
def c7arch : ArchiverState :=
  ⟨⟨some [], (lastBlockKey, encodeUint64 19) ::
      (List.range 20).map (fun h => (numKey h, encodeUint64 h)), 0⟩, 5, 0, 0⟩

/-- C7 counterexample: `shouldArchive` returns true for every key, so the
cycle also moves heights `14..19` (and the marker itself): after one call
the height-14 key is deleted from current and present in the archive,
contradicting "the keys for heights 14..19 remain present only in the
current store". -/
theorem claim7_counterexample :
    sget (archiveFinalized c7arch).1.db.current (numKey 14) = none ∧
      archGet (archiveFinalized c7arch).1.db (numKey 14)
        = some (encodeUint64 14) := by
  constructor
  · decide
  · decide

/-- C7 (amended): with `finalityDelay = 5` and the marker at 19, a single
call moves every key of the current store — the heights `0..19`
(heights `0..13` among them) and the marker itself — into the archive and
deletes all of them from current, leaving current empty; 21 keys are
archived in total. -/
theorem claim7_archive_all_amended :
    (archiveFinalized c7arch).1.db.current = [] ∧
      (∀ h ∈ List.range 20,
        archGet (archiveFinalized c7arch).1.db (numKey h)
          = some (encodeUint64 h)) ∧
      archGet (archiveFinalized c7arch).1.db lastBlockKey
        = some (encodeUint64 19) ∧
      (archiveFinalized c7arch).1.totalArchived = 21 := by
  refine ⟨by decide, by decide, by decide, by decide⟩

/-- Witness for C7 (amended), discharging the bounded quantifier at
height 5: the height-5 key landed in the archive. -/
theorem claim7_archive_all_amended_witness :
    archGet (archiveFinalized c7arch).1.db (numKey 5) = some (encodeUint64 5) :=
  claim7_archive_all_amended.2.1 5 (by decide)

/-- A cycle that leaves the archiver state unchanged is trivially
followed by an identical cycle. -/
theorem archiveFinalized_fix (a : ArchiverState) (r : Except String Unit)
    (hfix : archiveFinalized a = (a, r)) :
    (archiveFinalized (archiveFinalized a).1).1.totalArchived
        = (archiveFinalized a).1.totalArchived ∧
      (archiveFinalized (archiveFinalized a).1).1.totalDeleted
        = (archiveFinalized a).1.totalDeleted ∧
      (archiveFinalized (archiveFinalized a).1).1.db.current
        = (archiveFinalized a).1.db.current := by
  have h1 : (archiveFinalized a).1 = a := by rw [hfix]
  rw [h1, h1]
  exact ⟨rfl, rfl, rfl⟩

/-- After an active cycle, the next cycle finds the same height, an empty
current store, and archives and deletes nothing. -/
theorem archiveFinalized_active_then_noop (a : ArchiverState) (arc : Store)
    (h : Nat) (harc : a.db.archive = some arc)
    (hh : getCurrentHeight a.db = .ok h) (h0 : h ≠ 0)
    (hd : ¬ h ≤ a.finalityDelay) (hnd : nodupKeys a.db.current)
    (hne : ∀ kv ∈ a.db.current, kv.1 ≠ ([] : Bytes)) :
    (archiveFinalized (archiveFinalized a).1).1.totalArchived
        = (archiveFinalized a).1.totalArchived ∧
      (archiveFinalized (archiveFinalized a).1).1.totalDeleted
        = (archiveFinalized a).1.totalDeleted ∧
      (archiveFinalized (archiveFinalized a).1).1.db.current
        = (archiveFinalized a).1.db.current := by
  have hsome : a.db.archive.isSome = true := by rw [harc]; rfl
  have hfst : (archiveFinalized a).1
      = { db := { applyEvents a.db (archiveEvents a.db.current) with
            finalityHeight := h - a.finalityDelay },
          finalityDelay := a.finalityDelay,
          totalArchived := a.totalArchived + a.db.current.length,
          totalDeleted := a.totalDeleted
            + (delKeysOf (archiveEvents a.db.current)).length } := by
    rw [archiveFinalized_active a arc h harc hh h0 hd]
  have hcur : (archiveFinalized a).1.db.current = [] := by
    rw [hfst]
    exact applyEvents_archive_current_nil a.db hne
  have hsomeA : (archiveFinalized a).1.db.archive.isSome = true := by
    rw [hfst]
    exact applyEvents_archive_isSome _ a.db hsome
  obtain ⟨arc', harc'⟩ := Option.isSome_iff_exists.mp hsomeA
  have hhA : getCurrentHeight (archiveFinalized a).1.db = .ok h := by
    rw [hfst]
    exact getCurrentHeight_after_cycle a.db h (h - a.finalityDelay) hsome hnd hh h0
  have hdA : ¬ h ≤ (archiveFinalized a).1.finalityDelay := by
    rw [hfst]
    exact hd
  exact archiveFinalized_second_noop (archiveFinalized a).1 h arc' harc' hhA h0
    hdA hcur

/-- C5: with no writes between the two runs, a second consecutive
`archiveFinalized` archives zero keys and deletes zero keys — the
cumulative `totalArchived` and `totalDeleted` counters are unchanged by
the second run, and so is the current store.  (The well-formedness
hypotheses — unique, non-empty keys — hold of every real BadgerDB store.) -/
theorem claim5_archiver_idempotent (a : ArchiverState)
    (hnd : nodupKeys a.db.current)
    (hne : ∀ kv ∈ a.db.current, kv.1 ≠ ([] : Bytes)) :
    (archiveFinalized (archiveFinalized a).1).1.totalArchived
        = (archiveFinalized a).1.totalArchived ∧
      (archiveFinalized (archiveFinalized a).1).1.totalDeleted
        = (archiveFinalized a).1.totalDeleted ∧
      (archiveFinalized (archiveFinalized a).1).1.db.current
        = (archiveFinalized a).1.db.current := by
  cases harc : a.db.archive with
  | none => exact archiveFinalized_fix a _ (archiveFinalized_no_archive a harc)
  | some arc =>
    cases hh : getCurrentHeight a.db with
    | error e =>
      exact archiveFinalized_fix a _ (archiveFinalized_height_error a arc e harc hh)
    | ok h =>
      by_cases hid : h = 0 ∨ h ≤ a.finalityDelay
      · exact archiveFinalized_fix a _ (archiveFinalized_idle a arc h harc hh hid)
      · obtain ⟨h0, hd⟩ := not_or.mp hid
        exact archiveFinalized_active_then_noop a arc h harc hh h0 hd hnd hne

/-- Witness for C5 on a concrete store: marker at height 9, one data key,
`finalityDelay = 2`. -/
theorem claim5_archiver_idempotent_witness :
    (archiveFinalized (archiveFinalized
        (⟨⟨some [], [(lastBlockKey, encodeUint64 9), ([3], [4])], 0⟩, 2, 0, 0⟩ :
          ArchiverState)).1).1.totalArchived
      = (archiveFinalized
        (⟨⟨some [], [(lastBlockKey, encodeUint64 9), ([3], [4])], 0⟩, 2, 0, 0⟩ :
          ArchiverState)).1.totalArchived ∧
    (archiveFinalized (archiveFinalized
        (⟨⟨some [], [(lastBlockKey, encodeUint64 9), ([3], [4])], 0⟩, 2, 0, 0⟩ :
          ArchiverState)).1).1.totalDeleted
      = (archiveFinalized
        (⟨⟨some [], [(lastBlockKey, encodeUint64 9), ([3], [4])], 0⟩, 2, 0, 0⟩ :
          ArchiverState)).1.totalDeleted ∧
    (archiveFinalized (archiveFinalized
        (⟨⟨some [], [(lastBlockKey, encodeUint64 9), ([3], [4])], 0⟩, 2, 0, 0⟩ :
          ArchiverState)).1).1.db.current
      = (archiveFinalized
        (⟨⟨some [], [(lastBlockKey, encodeUint64 9), ([3], [4])], 0⟩, 2, 0, 0⟩ :
          ArchiverState)).1.db.current :=
  claim5_archiver_idempotent
    ⟨⟨some [], [(lastBlockKey, encodeUint64 9), ([3], [4])], 0⟩, 2, 0, 0⟩
    (by decide) (by decide)

end TieredStore
